import Mathlib

/-!
Shallow embedding of the libfsx chunked-encryption storage engine:
the virtual filesystem tree (`src/fileSystem.ts`, second snapshot),
path utilities (`src/utils.ts`), the upload/download streams
(`src/streams/download.ts`) and the import/export serializer.
Byte arrays are lists of naturals; strings are Lean strings whose
`data` field mirrors the JavaScript string character sequence.
External collaborators (AES-GCM, SHA-512, the webhook blob store) are
modelled as explicit parameters, as the spec treats them as opaque
capabilities.
-/

namespace Libfsx

abbrev Bytes := List Nat

/-! ## Character and string helpers mirroring JavaScript semantics -/

def isFwd (c : Char) : Bool := c == '/'

def isSlash (c : Char) : Bool := c == '/' || c == '\\'

def isTab (c : Char) : Bool := c == '\t'

def isNl (c : Char) : Bool := c == '\n'

/-- JavaScript `String.prototype.split` with a single-character-class
separator: splits into the (possibly empty) pieces between separators;
the empty string yields `[""]`. -/
def splitCh (p : Char → Bool) : List Char → List (List Char)
  | [] => [[]]
  | c :: rest =>
    if p c then [] :: splitCh p rest
    else
      match splitCh p rest with
      | h :: t => (c :: h) :: t
      | [] => [[c]]

def jsSplit (p : Char → Bool) (s : String) : List String :=
  (splitCh p s.data).map (fun l => ⟨l⟩)

/-- JavaScript `Array.prototype.join("/")`-style join. -/
def joinSeps (sep : Char) : List (List Char) → List Char
  | [] => []
  | [s] => s
  | s :: rest => s ++ sep :: joinSeps sep rest

def joinSegs (sep : Char) (segs : List String) : String :=
  ⟨joinSeps sep (segs.map String.data)⟩

/-- Whitespace characters removed by JavaScript `String.prototype.trim`. -/
def isWs (c : Char) : Bool :=
  c == ' ' || c == '\t' || c == '\n' || c == '\r' || c == '\x0b' || c == '\x0c'

def trimChars (l : List Char) : List Char :=
  ((l.dropWhile isWs).reverse.dropWhile isWs).reverse

def trimJS (s : String) : String := ⟨trimChars s.data⟩

def hasChar (s : String) (c : Char) : Bool := s.data.contains c

/-! ## Decimal printing and `parseInt` -/

def digitChar (n : Nat) : Char := Char.ofNat (48 + n)

def digitVal (c : Char) : Option Nat :=
  if 48 ≤ c.toNat ∧ c.toNat ≤ 57 then some (c.toNat - 48) else none

/-- Canonical decimal digits of a natural number (JavaScript `String(n)`). -/
def natDec (n : Nat) : List Char :=
  if _h : n < 10 then [digitChar n]
  else natDec (n / 10) ++ [digitChar (n % 10)]
  decreasing_by exact Nat.div_lt_self (by omega) (by omega)

/-- JavaScript `String(i)` for an integral number. -/
def intStr (i : Int) : String :=
  if i < 0 then ⟨'-' :: natDec i.natAbs⟩ else ⟨natDec i.natAbs⟩

/-- `size`/`creationDate` fields are JavaScript numbers: `none` models `NaN`
(the result of `parseInt` on a non-numeric string). -/
abbrev JsNum := Option Int

def numStr : JsNum → String
  | some i => intStr i
  | none => "NaN"

/-- Leading run of decimal digits. -/
def takeDigits : List Char → List Nat
  | [] => []
  | c :: rest =>
    match digitVal c with
    | some d => d :: takeDigits rest
    | none => []

def decValue (ds : List Nat) : Nat := ds.foldl (fun a d => a * 10 + d) 0

/-- JavaScript `parseInt(s)` (base 10): skip leading whitespace, optional
sign, then the longest digit prefix; `NaN` (here `none`) if there is none. -/
def parseIntJS (s : String) : JsNum :=
  match s.data.dropWhile isWs with
  | [] => none
  | c :: rest =>
    if c = '-' then
      if takeDigits rest = [] then none else some (-(decValue (takeDigits rest) : Int))
    else if c = '+' then
      if takeDigits rest = [] then none else some (decValue (takeDigits rest))
    else
      if takeDigits (c :: rest) = [] then none
      else some (decValue (takeDigits (c :: rest)))

/-! ## Path utilities (`src/utils.ts`) -/

/-- `"/" + segs.join("/")`: the path shape produced by `dirname` and by
the `walkDirectory` traversal. -/
def mkPath (segs : List String) : String :=
  "/" ++ joinSegs '/' segs

/-- `dirname`: split on `/` or `\`, drop empty segments, drop the last
segment, re-join under a leading `/`. -/
def dirname (path : String) : String :=
  mkPath (((jsSplit isSlash path).filter (fun s => s ≠ "")).dropLast)

/-- `basename`: last piece of the raw split (empty pieces included), with
`undefined`/`""` collapsing to `""` via `|| ""`. -/
def basename (path : String) : String :=
  (jsSplit isSlash path).getLastD ""

/-- `path.split("/").filter((s) => s.length)` as used by `getNode`,
`setNode` and `delete` (forward slashes only). -/
def pathSegments (path : String) : List String :=
  (jsSplit isFwd path).filter (fun s => s ≠ "")

/-! ## Constants (`src/constants.ts`) -/

/-- `Math.floor(7.6 * 1024 * 1024)`. -/
def MaxChunkSize : Nat := 7969177

def forbiddenChars : List Char := ['<', '>', ':', '"', '/', '\\', '|', '?', '*']

/-- `ForbiddenNameCharactersTest.test(name)`. -/
def hasForbiddenChar (s : String) : Bool := s.data.any (fun c => forbiddenChars.contains c)

/-! ## The virtual filesystem tree (`src/types.ts`, `src/fileSystem.ts`) -/

/-- `IFileSystemNode`: a file carries `size`, `creationDate` and the
manifest reference `metaUrl`; a directory carries an ordered child list. -/
inductive FSNode where
  | file (name : String) (size : JsNum) (creationDate : JsNum) (metaUrl : String)
  | dir (name : String) (children : List FSNode)
  deriving Repr

def FSNode.name : FSNode → String
  | .file n _ _ _ => n
  | .dir n _ => n

def FSNode.isDir : FSNode → Bool
  | .file _ _ _ _ => false
  | .dir _ _ => true

/-- `structuredClone(sourceNode)` followed by `targetNode.name = targetName`. -/
def FSNode.rename : FSNode → String → FSNode
  | .file _ sz cd mu, m => .file m sz cd mu
  | .dir _ cs, m => .dir m cs

/-- The error taxonomy.  `forbiddenCharacters` is the
`ForbiddenCharactersError` subclass of `InvalidNameError`. -/
inductive Err where
  | invalidName
  | forbiddenCharacters
  | invalidOperation
  | authenticationFailure
  | transferFailure
  deriving Repr, DecidableEq

/-- `children.find((c) => c.name === name)`. -/
def findChild (cs : List FSNode) (n : String) : Option FSNode :=
  cs.find? (fun c => c.name == n)

/-- Replace the first child with the given name (in-place mutation of the
aliased array entry in the source). -/
def replaceFirst (cs : List FSNode) (n : String) (sub : FSNode) : List FSNode :=
  match cs with
  | [] => []
  | c :: rest => if c.name == n then sub :: rest else c :: replaceFirst rest n sub

/-- The empty root directory. -/
def emptyRoot : FSNode := .dir "" []

/-- `getNode` path walk over already-split segments. -/
def getNodeAux : FSNode → List String → Option FSNode
  | cur, [] => some cur
  | .dir _ cs, n :: rest =>
    match findChild cs n with
    | some c => getNodeAux c rest
    | none => none
  | .file _ _ _ _, _ :: _ => none

/-- `FileSystem.getNode(path)`. -/
def getNode (root : FSNode) (path : String) : Option FSNode :=
  getNodeAux root (pathSegments path)

/-- `FileSystem.exists(path)`. -/
def existsPath (root : FSNode) (path : String) : Bool :=
  (getNode root path).isSome

/-- The `setNode` walk.  The source mutates the tree in place while
descending (absent directories are pushed as it goes), so a thrown error
leaves whatever was already pushed; the `error` branch therefore carries
the tree as mutated at the moment of the throw. -/
def setNodeAux : FSNode → List String → FSNode → Except (Err × FSNode) FSNode
  | .dir dn cs, [], node =>
    .ok (.dir dn ((cs.filter (fun c => c.name ≠ node.name)) ++ [node]))
  | .dir dn cs, seg :: rest, node =>
    match findChild cs seg with
    | none =>
      match setNodeAux (.dir seg []) rest node with
      | .ok sub => .ok (.dir dn (cs ++ [sub]))
      | .error (e, sub) => .error (e, .dir dn (cs ++ [sub]))
    | some child =>
      if child.isDir then
        match setNodeAux child rest node with
        | .ok sub => .ok (.dir dn (replaceFirst cs seg sub))
        | .error (e, sub) => .error (e, .dir dn (replaceFirst cs seg sub))
      else .error (.invalidOperation, .dir dn cs)
  | .file fn sz cd mu, _, _ => .error (.invalidOperation, .file fn sz cd mu)

/-- `FileSystem.setNode(parentDirectory, node)`: name validation first,
then the mkdir-p walk, then replace-or-append at the final directory. -/
def setNode (root : FSNode) (parentDirectory : String) (node : FSNode) :
    Except (Err × FSNode) FSNode :=
  if hasForbiddenChar node.name then .error (.forbiddenCharacters, root)
  else if node.name.length < 1 then .error (.invalidName, root)
  else setNodeAux root (pathSegments parentDirectory) node

/-- The `delete` walk over the segments of `dirname(path)`: every segment
must resolve to an existing directory; at the last segment that child is
removed from the current directory. -/
def deleteAux : FSNode → List String → Except (Err × FSNode) FSNode
  | d, [] => .ok d
  | .dir dn cs, seg :: rest =>
    match findChild cs seg with
    | none => .error (.invalidOperation, .dir dn cs)
    | some child =>
      if child.isDir then
        if rest.isEmpty then
          .ok (.dir dn (cs.filter (fun c => c.name ≠ seg)))
        else
          match deleteAux child rest with
          | .ok sub => .ok (.dir dn (replaceFirst cs seg sub))
          | .error (e, sub) => .error (e, .dir dn (replaceFirst cs seg sub))
      else .error (.invalidOperation, .dir dn cs)
  | .file fn sz cd mu, _ :: _ => .error (.invalidOperation, .file fn sz cd mu)

/-- `FileSystem.delete(path)`: note the walk runs over the segments of
`dirname(path)`, exactly as in the source. -/
def deleteNode (root : FSNode) (path : String) : Except (Err × FSNode) FSNode :=
  deleteAux root (pathSegments (dirname path))

/-- `FileSystem.copy(source, target)`. -/
def copy (root : FSNode) (source target : String) : Except (Err × FSNode) FSNode :=
  let targetDirname := dirname target
  let targetName := basename target
  match getNode root source with
  | none => .error (.invalidOperation, root)
  | some sourceNode =>
    let p : String × String :=
      match getNode root target with
      | some (.dir _ _) =>
        let t := target ++ "/" ++ targetName
        (dirname t, basename t)
      | _ => (targetDirname, targetName)
    setNode root p.1 (sourceNode.rename p.2)

/-- `FileSystem.move(source, target)`: `copy` then `delete(source)`. -/
def move (root : FSNode) (source target : String) : Except (Err × FSNode) FSNode :=
  match copy root source target with
  | .ok r => deleteNode r source
  | .error e => .error e

def FSNode.childrenD : FSNode → List FSNode
  | .dir _ cs => cs
  | .file _ _ _ _ => []

/-- `walkDirectory`: depth-first, files only, path accumulated as
`"/" + [...acc, name].join("/")`. -/
def walkEntries : List FSNode → List String → List (String × JsNum × JsNum × String)
  | [], _ => []
  | .dir n cs :: rest, acc => walkEntries cs (acc ++ [n]) ++ walkEntries rest acc
  | .file n sz cd mu :: rest, acc =>
    (mkPath (acc ++ [n]), sz, cd, mu) :: walkEntries rest acc

/-! ## Serializer (`FileSystem.export` / `FileSystem.init`) -/

def headerLine (kv : String × String) : String := kv.1 ++ ": " ++ kv.2

def recordLine (e : String × JsNum × JsNum × String) : String :=
  e.1 ++ "\t" ++ numStr e.2.1 ++ "\t" ++ numStr e.2.2.1 ++ "\t" ++ e.2.2.2

/-- `FileSystem.export()`: header lines in map order, one blank line, one
tab-separated record per file in walk order, all joined by newlines. -/
def exportFS (headers : List (String × String)) (root : FSNode) : String :=
  joinSegs '\n'
    (headers.map headerLine ++ [""] ++ (walkEntries root.childrenD []).map recordLine)

/-- JavaScript `Map.prototype.set`: update in place or append. -/
def hset (m : List (String × String)) (k v : String) : List (String × String) :=
  if m.any (fun kv => kv.1 == k) then
    m.map (fun kv => if kv.1 == k then (k, v) else kv)
  else m ++ [(k, v)]

def hget (m : List (String × String)) (k : String) : Option String :=
  (m.find? (fun kv => kv.1 == k)).map (fun kv => kv.2)

/-- `EncryptionKeyHashSalt` from `src/constants.ts`. -/
def EncryptionKeyHashSalt : String := "V[\x27Np6tb$g:h4Y%;"

/-- Hex of `createHash512(masterKey + EncryptionKeyHashSalt)`; SHA-512 is an
external primitive, abstracted as the function parameter `hash`. -/
def keyHashHex (hash : String → String) (masterKey : String) : String :=
  hash (masterKey ++ EncryptionKeyHashSalt)

/-- The default header block written by `init()` before any restore, in
`Map` insertion order. -/
def initialHeaders (freshSaltHex creationDate khash : String) : List (String × String) :=
  [("FileSystem-Version", "1"),
   ("Creation-Date", creationDate),
   ("Description", "A data container"),
   ("Tags", ""),
   ("Use-Encryption", "1"),
   ("Encryption-Salt", freshSaltHex),
   ("Encryption-Key-Hash", khash)]

/-- First-occurrence split, mirroring `line.indexOf(":")` plus the two
`slice` calls. -/
def splitFirst (p : Char → Bool) : List Char → Option (List Char × List Char)
  | [] => none
  | c :: rest =>
    if p c then some ([], rest)
    else (splitFirst p rest).map (fun pr => (c :: pr.1, pr.2))

/-- Header-line parse: `key = line.slice(0, i).trim()`,
`value = line.slice(i + 1).trim()`; when there is no colon, `i = -1`, so
the key is the line minus its last character and the value is the whole
line. -/
def parseHeaderLine (line : String) : String × String :=
  match splitFirst (fun c => c == ':') line.data with
  | some (pre, post) => (trimJS ⟨pre⟩, trimJS ⟨post⟩)
  | none => (trimJS ⟨line.data.dropLast⟩, trimJS line)

structure ImportState where
  doneHeaders : Bool
  headers : List (String × String)
  root : FSNode
  deriving Repr

/-- The file node built from one tab-separated record line (destructured
fields, missing ones reading as empty). -/
def recordNode (line : String) : FSNode :=
  .file (basename ((jsSplit isTab line).getD 0 ""))
    (parseIntJS ((jsSplit isTab line).getD 1 ""))
    (parseIntJS ((jsSplit isTab line).getD 2 ""))
    ((jsSplit isTab line).getD 3 "")

/-- One line of the `init()` restore loop: header mode until the first
blank line (checking the stored key hash against the supplied
passphrase's hash on the `Encryption-Key-Hash` header), record mode
afterwards (re-inserting each file via `setNode(dirname(path), ...)`). -/
def importLine (hash : String → String) (masterKey : String) (st : ImportState)
    (line : String) : Except (Err × ImportState) ImportState :=
  if st.doneHeaders = false then
    if line.length < 1 then .ok { st with doneHeaders := true }
    else
      if (parseHeaderLine line).1 = "Encryption-Key-Hash" ∧
          keyHashHex hash masterKey ≠ (parseHeaderLine line).2 then
        .error (.authenticationFailure, st)
      else
        .ok { st with
          headers := hset st.headers (parseHeaderLine line).1 (parseHeaderLine line).2 }
  else
    match setNode st.root (dirname ((jsSplit isTab line).getD 0 "")) (recordNode line) with
    | .ok r => .ok { st with root := r }
    | .error (e, r) => .error (e, { st with root := r })

/-- The `for (const line of data.split("\n"))` loop: lines processed in
order, a throw aborting the whole restore. -/
def runImport (hash : String → String) (masterKey : String) (st : ImportState) :
    List String → Except (Err × ImportState) ImportState
  | [] => .ok st
  | l :: rest =>
    match importLine hash masterKey st l with
    | .ok st1 => runImport hash masterKey st1 rest
    | .error e => .error e

/-- `FileSystem.init(sourceData?)`: fresh root and default headers (with a
freshly generated salt, supplied here as the `freshSaltHex` parameter, and
the current date), then, when restoring, the line-by-line import. -/
def initFS (hash : String → String) (masterKey freshSaltHex freshDate : String)
    (sourceData : Option String) : Except (Err × ImportState) ImportState :=
  let st0 : ImportState :=
    ⟨false, initialHeaders freshSaltHex freshDate (keyHashHex hash masterKey), emptyRoot⟩
  match sourceData with
  | none => .ok st0
  | some data => runImport hash masterKey st0 (jsSplit isNl data)

/-! ## Upload stream (`src/streams/upload.ts`) -/

structure Chunk where
  size : Nat
  link : Nat
  iv : Bytes
  deriving Repr, DecidableEq

/-- Upload-stream state plus the webhook blob store (links are indices
into `store`) and the per-flush random-IV supply cursor. -/
structure UploadState where
  buffer : List Bytes
  chunks : List Chunk
  totalBytes : Nat
  store : List Bytes
  ivCounter : Nat
  deriving Repr, DecidableEq

/-- `bytesInBuffer()`. -/
def bytesInBuffer (buf : List Bytes) : Nat :=
  buf.foldl (fun a b => a + b.length) 0

/-- `flush()`: fresh IV, concatenate the buffered fragments, encrypt,
store, append the chunk descriptor, account the ciphertext size, clear the
buffer.  `enc` is AES-256-GCM under the stream key, `ivs` the random IV
supply. -/
def flush (enc : Bytes → Bytes → Bytes) (ivs : Nat → Bytes) (s : UploadState) : UploadState :=
  let iv := ivs s.ivCounter
  let raw := s.buffer.flatten
  let data := enc raw iv
  { buffer := []
    chunks := s.chunks ++ [⟨data.length, s.store.length, iv⟩]
    totalBytes := s.totalBytes + data.length
    store := s.store ++ [data]
    ivCounter := s.ivCounter + 1 }

/-- The `write` sink callback. -/
def writeStep (enc : Bytes → Bytes → Bytes) (ivs : Nat → Bytes) (s : UploadState)
    (b : Bytes) : UploadState :=
  if bytesInBuffer s.buffer + b.length ≤ MaxChunkSize then
    { s with buffer := s.buffer ++ [b] }
  else
    { flush enc ivs s with buffer := [b] }

/-- The `close` sink callback: a final unconditional `flush`. -/
def closeStep (enc : Bytes → Bytes → Bytes) (ivs : Nat → Bytes) (s : UploadState) :
    UploadState :=
  flush enc ivs s

def initUploadState : UploadState := ⟨[], [], 0, [], 0⟩

/-- A whole upload: every `write`, then `close`. -/
def runUpload (enc : Bytes → Bytes → Bytes) (ivs : Nat → Bytes) (writes : List Bytes) :
    UploadState :=
  closeStep enc ivs (writes.foldl (writeStep enc ivs) initUploadState)

/-- Decrypt every chunk of a manifest against the blob store: fetch the
ciphertext by link, decrypt with the chunk iv.  `dec` returns `none` on an
authentication failure. -/
def decryptChunks (dec : Bytes → Bytes → Option Bytes) (store : List Bytes)
    (chunks : List Chunk) : Option (List Bytes) :=
  chunks.mapM (fun c => (store.get? c.link).bind (fun ct => dec ct c.iv))

/-! ## Download stream (`src/streams/download.ts`, retrying snapshot) -/

/-- One fetch-and-decrypt attempt: `fetcher link attempt` models the
network fetch for a given chunk link on a given (1-based) attempt number;
`dec` is AES-GCM decryption under the stream key. -/
def attemptOutcome (dec : Bytes → Bytes → Option Bytes) (fetcher : Nat → Nat → Option Bytes)
    (c : Chunk) (attempt : Nat) : Option Bytes :=
  (fetcher c.link attempt).bind (fun ct => dec ct c.iv)

/-- The `getChunk` retry loop: `while (tries < 3) { tries++; ... }`,
written over `attempt` (the value of `tries` after the increment) and the
number of loop iterations still allowed.  Returns the sleep trace
(milliseconds, in order), the fetch-attempt log (link, attempt number) and
the result (`none` models the final `throw`).  On a failed attempt the
source sleeps `1000 * (tries * 10)` milliseconds, also after the third
failure. -/
def getChunkGo (dec : Bytes → Bytes → Option Bytes) (fetcher : Nat → Nat → Option Bytes)
    (c : Chunk) : Nat → Nat → List Nat × List (Nat × Nat) × Option Bytes
  | _, 0 => ([], [], none)
  | attempt, remaining + 1 =>
    match attemptOutcome dec fetcher c attempt with
    | some pt => ([], [(c.link, attempt)], some pt)
    | none =>
      let rest := getChunkGo dec fetcher c (attempt + 1) remaining
      (1000 * (attempt * 10) :: rest.1, (c.link, attempt) :: rest.2.1, rest.2.2)

/-- `getChunk(chunk)`: up to 3 total attempts. -/
def getChunk (dec : Bytes → Bytes → Option Bytes) (fetcher : Nat → Nat → Option Bytes)
    (c : Chunk) : List Nat × List (Nat × Nat) × Option Bytes :=
  getChunkGo dec fetcher c 1 3

/-- The pull loop over the whole manifest: plaintexts emitted in order,
the concatenated fetch log, and whether the stream completed (`true`) or
terminated abnormally after a chunk exhausted its retries (`false`, the
`TransferFailure`); no later chunk is ever fetched after a failure. -/
def downloadRun (dec : Bytes → Bytes → Option Bytes) (fetcher : Nat → Nat → Option Bytes) :
    List Chunk → List Bytes × List (Nat × Nat) × Bool
  | [] => ([], [], true)
  | c :: rest =>
    let g := getChunk dec fetcher c
    match g.2.2 with
    | some pt =>
      let r := downloadRun dec fetcher rest
      (pt :: r.1, g.2.1 ++ r.2.1, r.2.2)
    | none => ([], g.2.1, false)

/-! ## Specification-side view of the tree used for the round-trip proof -/

/-- Child names of a directory list. -/
def names (cs : List FSNode) : List String := cs.map FSNode.name

/-- The walk of a child list with the path accumulator kept as segments:
each file yields (parent segments, name, size, creationDate, metaUrl). -/
def entriesSeg : List FSNode → List String →
    List (List String × String × JsNum × JsNum × String)
  | [], _ => []
  | .dir n cs :: rest, acc => entriesSeg cs (acc ++ [n]) ++ entriesSeg rest acc
  | .file n sz cd mu :: rest, acc => (acc, n, sz, cd, mu) :: entriesSeg rest acc

/-- Insert a sequence of file entries with the `setNode` walk, stopping at
the first error — the heart of the restore loop. -/
def insertAll (t : FSNode) :
    List (List String × String × JsNum × JsNum × String) →
      Except (Err × FSNode) FSNode
  | [] => .ok t
  | (acc, n, sz, cd, mu) :: rest =>
    match setNodeAux t acc (.file n sz cd mu) with
    | .ok t2 => insertAll t2 rest
    | .error e => .error e

/-- Drop subtrees that contain no files: the restore only re-creates
directories that lie on some file's path. -/
def pruneList : List FSNode → List FSNode
  | [] => []
  | .file n sz cd mu :: rest => .file n sz cd mu :: pruneList rest
  | .dir n cs :: rest =>
    if (entriesSeg cs []).isEmpty then pruneList rest
    else .dir n (pruneList cs) :: pruneList rest

/-- No tab and no newline: the characters that break the line- and
tab-separated export format. -/
def cleanStr (s : String) : Prop := ¬ ('\t' ∈ s.data) ∧ ¬ ('\n' ∈ s.data)

/-- A node name the system itself accepts and that survives the text
round-trip. -/
def validName (s : String) : Prop :=
  s ≠ "" ∧ hasForbiddenChar s = false ∧ cleanStr s

mutual

/-- Well-formed, export-clean tree. -/
def wfTree : FSNode → Prop
  | .file n sz cd mu =>
    validName n ∧ (∃ i, sz = some i) ∧ (∃ j, cd = some j) ∧ cleanStr mu
  | .dir n cs => validName n ∧ (names cs).Nodup ∧ wfList cs

def wfList : List FSNode → Prop
  | [] => True
  | c :: rest => wfTree c ∧ wfList rest

end

mutual

def nodeSize : FSNode → Nat
  | .file _ _ _ _ => 1
  | .dir _ cs => 1 + listSize cs

def listSize : List FSNode → Nat
  | [] => 0
  | c :: rest => nodeSize c + listSize rest

end

/-- The record line of a segment-level entry. -/
def entryLine (e : List String × String × JsNum × JsNum × String) : String :=
  recordLine (mkPath (e.1 ++ [e.2.1]), e.2.2)

/-- An entry whose path segments and payload survive the text round-trip. -/
def entryClean (e : List String × String × JsNum × JsNum × String) : Prop :=
  (∀ s ∈ e.1, validName s) ∧ validName e.2.1 ∧ (∃ i, e.2.2.1 = some i) ∧
  (∃ j, e.2.2.2.1 = some j) ∧ cleanStr e.2.2.2.2

/-- A header binding that survives the `key: value` line format: the key
has no colon, neither side is changed by `trim`, and neither side holds a
newline. -/
def headerKV (kv : String × String) : Prop :=
  (∀ c ∈ kv.1.data, c ≠ ':') ∧ trimJS kv.1 = kv.1 ∧ trimJS kv.2 = kv.2 ∧
  ¬ ('\n' ∈ kv.1.data) ∧ ¬ ('\n' ∈ kv.2.data)

/-- Concrete collaborators for the C8 witness: decryption is the
identity, the fetch of link 0 succeeds only on the third attempt, and all
fetches of link 5 fail. -/
def wFetch : Nat → Nat → Option Bytes :=
  fun link n => if link = 0 ∧ n = 3 then some [7] else none

def wDec : Bytes → Bytes → Option Bytes := fun ctxt _ => some ctxt

/-- Chunk links are handed out by the blob store in flush order:
`chunks[i].link` is `i`, and one blob is stored per chunk. -/
def linkOrder (s : UploadState) : Prop :=
  s.chunks.map Chunk.link = List.range s.store.length

/-- Upload-stream invariant: links are in flush order, every stored
ciphertext decrypts back, and the decrypted chunks plus the pending
buffer account for exactly the bytes consumed so far. -/
def uploadInv (dec : Bytes → Bytes → Option Bytes) (s : UploadState)
    (consumed : Bytes) : Prop :=
  linkOrder s ∧
  ∃ pl, decryptChunks dec s.store s.chunks = some pl ∧
    pl.flatten ++ s.buffer.flatten = consumed

/-! ## Helper lemmas -/

theorem length_lt_one_iff (s : String) : s.length < 1 ↔ s = "" := by
  constructor
  · intro h
    cases s with
    | mk data =>
      cases data with
      | nil => rfl
      | cons a t => simp [String.length] at h
  · intro h
    subst h
    decide

theorem bytesInBuffer_append (buf : List Bytes) (b : Bytes) :
    bytesInBuffer (buf ++ [b]) = bytesInBuffer buf + b.length := by
  simp [bytesInBuffer, List.foldl_append, List.foldl_cons, List.foldl_nil]

/-! ## Claim theorems -/

/-- C3: the claim fails on the code.  `delete` walks the segments of
`dirname(path)` instead of `path`, so `delete("/a")` of a root-level node
is a no-op.  Hence `move("/a", "/b")` on a tree holding the single file
`a` completes without error, yet `exists("/a")` is still `true`
afterwards (and the node also appears at `"/b"`), contradicting the
claimed post-condition `exists(a) = false`. -/
theorem move_root_file_leaves_source :
    (move (.dir "" [.file "a" (some 1) (some 2) "u"]) "/a" "/b").map
        (fun t => (existsPath t "/a", existsPath t "/b"))
      = .ok (true, true) := by rfl

/-- C4: the claim fails on the code.  `delete(path)` walks the segments of
`dirname(path)`: for a root-level file it never enters the loop and
removes nothing (first conjunct, `delete("/f")` returns the tree
unchanged and without error), and for a nested path it removes the
parent directory itself rather than the node at the path (second
conjunct, `delete("/d/x")` removes the whole directory `d`). -/
theorem delete_walks_parent_path :
    deleteNode (.dir "" [.file "f" (some 1) (some 2) "u"]) "/f"
        = .ok (.dir "" [.file "f" (some 1) (some 2) "u"])
    ∧ deleteNode (.dir "" [.dir "d" [.file "x" (some 1) (some 1) "m"]]) "/d/x"
        = .ok (.dir "" []) := by
  exact ⟨rfl, rfl⟩

/-- C5 counterexample: copying the file `/a` into the existing directory
`/d` does not place the clone at `/d/a` (the source's base name, as the
claim states); the code appends the TARGET's base name, so the clone
lands at `/d/d` instead. -/
theorem copy_into_directory_cex :
    (copy (.dir "" [.file "a" (some 1) (some 2) "u", .dir "d" []]) "/a" "/d").map
        (fun t => (getNode t "/d/a", getNode t "/d/d"))
      = .ok (none, some (.file "d" (some 1) (some 2) "u")) := by rfl

/-- C10: `close` performs one unconditional final `flush`, and every
`flush` appends exactly one chunk, so after `close` the chunk list is
never empty; a stream closed with zero writes records exactly one chunk
(the encryption of the empty plaintext) and its `totalBytes` equals that
chunk's ciphertext size. -/
theorem upload_close_always_flushes (enc : Bytes → Bytes → Bytes) (ivs : Nat → Bytes)
    (s : UploadState) (writes : List Bytes) :
    (closeStep enc ivs s).chunks =
      s.chunks ++ [⟨(enc s.buffer.flatten (ivs s.ivCounter)).length, s.store.length,
        ivs s.ivCounter⟩]
    ∧ (runUpload enc ivs writes).chunks ≠ []
    ∧ runUpload enc ivs [] =
        ⟨[], [⟨(enc [] (ivs 0)).length, 0, ivs 0⟩], (enc [] (ivs 0)).length,
          [enc [] (ivs 0)], 1⟩
    ∧ (runUpload enc ivs []).totalBytes = (enc [] (ivs 0)).length := by
  refine ⟨rfl, ?_, ?_, ?_⟩
  · simp [runUpload, closeStep, flush]
  · simp [runUpload, closeStep, flush, initUploadState]
  · simp [runUpload, closeStep, flush, initUploadState]

/-- C9: one `write(b)` step: if the buffered size plus `len(b)` fits in
`MaxChunkSize` the payload is appended to the buffer and no chunk is
produced; otherwise the existing buffer is flushed first — producing
exactly one chunk whose stored ciphertext decrypts to exactly the old
buffer contents, without any part of `b` — and the new buffer holds
exactly this payload, so a single oversized write is never split. -/
theorem upload_write_step_spec (enc : Bytes → Bytes → Bytes)
    (dec : Bytes → Bytes → Option Bytes) (ivs : Nat → Bytes)
    (s : UploadState) (b : Bytes)
    (hc : ∀ p iv, dec (enc p iv) iv = some p) :
    (bytesInBuffer s.buffer + b.length ≤ MaxChunkSize →
      writeStep enc ivs s b = { s with buffer := s.buffer ++ [b] })
    ∧ (MaxChunkSize < bytesInBuffer s.buffer + b.length →
        (writeStep enc ivs s b).buffer = [b]
        ∧ (writeStep enc ivs s b).chunks =
            s.chunks ++ [⟨(enc s.buffer.flatten (ivs s.ivCounter)).length, s.store.length,
              ivs s.ivCounter⟩]
        ∧ ((writeStep enc ivs s b).store.getLast?.bind
            (fun ct => dec ct (ivs s.ivCounter))) = some s.buffer.flatten) := by
  constructor
  · intro h
    simp [writeStep, h]
  · intro h
    have h2 : ¬ (bytesInBuffer s.buffer + b.length ≤ MaxChunkSize) := by omega
    refine ⟨?_, ?_, ?_⟩
    · simp [writeStep, h2]
    · simp [writeStep, h2, flush]
    · simp [writeStep, h2, flush, List.getLast?_concat, hc]

/-- Witness for C9, small-buffer branch: writing one byte to a fresh
stream appends it to the buffer. -/
theorem upload_write_step_spec_witness :
    writeStep (fun p _ => p) (fun _ => ([] : Bytes)) initUploadState [1] =
      { initUploadState with buffer := [[1]] } :=
  (upload_write_step_spec (fun p _ => p) (fun c _ => some c) (fun _ => [])
      initUploadState [1] (fun _ _ => rfl)).1 (by decide)

/-- C8: per-chunk retry.  If the first `k - 1` fetch-or-decrypt attempts
for a chunk fail and attempt `k ≤ 3` fetches a ciphertext that decrypts,
`getChunk` returns that plaintext after sleeping `10s × n` between
attempt `n` and attempt `n + 1`; if all 3 attempts for a chunk fail,
`getChunk` gives up (the `TransferFailure` throw, modelled as `none`)
after sleeps of 10s, 20s and 30s, and the whole download stops there: its
run on `pre ++ bad :: post` equals the run on `pre ++ [bad]` — no chunk
after the failing one is ever fetched — and it ends unsuccessfully. -/
theorem download_retry_spec (dec : Bytes → Bytes → Option Bytes)
    (fetcher : Nat → Nat → Option Bytes) (c bad : Chunk) (k : Nat) (ct pt : Bytes)
    (pre post : List Chunk)
    (hk1 : 1 ≤ k) (hk3 : k ≤ 3)
    (hfail : ∀ n, 1 ≤ n → n < k → attemptOutcome dec fetcher c n = none)
    (hfetch : fetcher c.link k = some ct) (hdec : dec ct c.iv = some pt)
    (hbad : ∀ n, 1 ≤ n → n ≤ 3 → attemptOutcome dec fetcher bad n = none) :
    getChunk dec fetcher c =
      ((List.range (k - 1)).map (fun i => 1000 * ((i + 1) * 10)),
       (List.range k).map (fun i => (c.link, i + 1)), some pt)
    ∧ getChunk dec fetcher bad =
        ([10000, 20000, 30000], [(bad.link, 1), (bad.link, 2), (bad.link, 3)], none)
    ∧ downloadRun dec fetcher (pre ++ bad :: post) = downloadRun dec fetcher (pre ++ [bad])
    ∧ (downloadRun dec fetcher (pre ++ bad :: post)).2.2 = false := by
  have hsucc : attemptOutcome dec fetcher c k = some pt := by
    simp [attemptOutcome, hfetch, hdec]
  have hbadchunk : getChunk dec fetcher bad =
      ([10000, 20000, 30000], [(bad.link, 1), (bad.link, 2), (bad.link, 3)], none) := by
    simp [getChunk, getChunkGo, hbad 1 (by omega) (by omega), hbad 2 (by omega) (by omega),
      hbad 3 (by omega) (by omega)]
  refine ⟨?_, hbadchunk, ?_, ?_⟩
  · interval_cases k
    · simp [getChunk, getChunkGo, hsucc]
      rfl
    · simp [getChunk, getChunkGo, hsucc, hfail 1 (by omega) (by omega)]
      refine ⟨by rfl, by rfl⟩
    · simp [getChunk, getChunkGo, hsucc, hfail 1 (by omega) (by omega),
        hfail 2 (by omega) (by omega)]
      refine ⟨by rfl, by rfl⟩
  · induction pre with
    | nil =>
      simp [downloadRun, hbadchunk]
    | cons p rest ih =>
      simp only [List.cons_append, downloadRun]
      cases hres : (getChunk dec fetcher p).2.2 with
      | none => rfl
      | some pt2 => simp [hres, ih]
  · induction pre with
    | nil =>
      simp [downloadRun, hbadchunk]
    | cons p rest ih =>
      simp only [List.cons_append, downloadRun]
      cases hres : (getChunk dec fetcher p).2.2 with
      | none => simp [hres]
      | some pt2 => simp [hres, ih]

/-- Witness for C8: the chunk with link 0 succeeds on the third attempt
after 10s and 20s sleeps; the chunk with link 5 exhausts its retries and
ends the download. -/
theorem download_retry_spec_witness :
    (getChunk wDec wFetch ⟨1, 0, []⟩ =
      ((List.range 2).map (fun i => 1000 * ((i + 1) * 10)),
       (List.range 3).map (fun i => ((0 : Nat), i + 1)), some [7]))
    ∧ getChunk wDec wFetch ⟨1, 5, []⟩ =
        ([10000, 20000, 30000], [(5, 1), (5, 2), (5, 3)], none)
    ∧ downloadRun wDec wFetch ([⟨1, 0, []⟩] ++ ⟨1, 5, []⟩ :: [⟨1, 9, []⟩]) =
        downloadRun wDec wFetch ([⟨1, 0, []⟩] ++ [⟨1, 5, []⟩])
    ∧ (downloadRun wDec wFetch ([⟨1, 0, []⟩] ++ ⟨1, 5, []⟩ :: [⟨1, 9, []⟩])).2.2 = false :=
  download_retry_spec wDec wFetch ⟨1, 0, []⟩ ⟨1, 5, []⟩ 3 [7] [7] [⟨1, 0, []⟩] [⟨1, 9, []⟩]
    (by decide) (by decide)
    (by intro n h1 h2; interval_cases n <;> rfl)
    rfl rfl
    (by intro n h1 h2; interval_cases n <;> rfl)

/-- Descending into a freshly created directory can never fail: every
lookup in it misses, so the walk only creates further directories. -/
theorem setNodeAux_fresh (segs : List String) (m : String) (node : FSNode) :
    ∃ t, setNodeAux (.dir m []) segs node = .ok t := by
  induction segs generalizing m with
  | nil => exact ⟨_, rfl⟩
  | cons s rest ih =>
    obtain ⟨t, ht⟩ := ih s
    exact ⟨.dir m ([] ++ [t]), by simp [setNodeAux, findChild, List.find?_nil, ht]⟩

theorem replaceFirst_self (cs : List FSNode) (n : String) (c : FSNode)
    (h : findChild cs n = some c) : replaceFirst cs n c = cs := by
  induction cs with
  | nil => simp [findChild] at h
  | cons x rest ih =>
    by_cases hx : x.name == n
    · rw [findChild, List.find?_cons_of_pos (p := fun c => c.name == n) rest hx] at h
      cases h
      simp [replaceFirst, hx]
    · rw [findChild, List.find?_cons_of_neg (p := fun c => c.name == n) rest hx] at h
      simp [replaceFirst, hx, ih h]

/-- If the `setNode` walk throws, the tree carried by the error is the
directory the walk started from: the only failing branch is an existing
file blocking the path, and on that branch no directory has been created
and no child replaced. -/
theorem setNodeAux_error_eq (segs : List String) (t node : FSNode) (e : Err)
    (t2 : FSNode) (h : setNodeAux t segs node = .error (e, t2)) : t2 = t := by
  induction segs generalizing t e t2 with
  | nil =>
    cases t with
    | file fn sz cd mu => simp [setNodeAux] at h; exact h.2.symm
    | dir dn cs => simp [setNodeAux] at h
  | cons s rest ih =>
    cases t with
    | file fn sz cd mu => simp [setNodeAux] at h; exact h.2.symm
    | dir dn cs =>
      cases hf : findChild cs s with
      | none =>
        obtain ⟨t3, ht3⟩ := setNodeAux_fresh rest s node
        simp [setNodeAux, hf, ht3] at h
      | some child =>
        by_cases hd : child.isDir
        · cases hrec : setNodeAux child rest node with
          | ok sub => simp [setNodeAux, hf, hd, hrec] at h
          | error pr =>
            obtain ⟨e2, sub⟩ := pr
            simp [setNodeAux, hf, hd, hrec] at h
            have hsub : sub = child := ih child e2 sub hrec
            rw [← h.2, hsub, replaceFirst_self cs s child hf]
        · simp [setNodeAux, hf, hd] at h
          exact h.2.symm

/-- C7: whenever `setNode` throws — `ForbiddenCharactersError` or
`InvalidNameError` during name validation, or `InvalidOperationError`
when a segment of the parent path exists as a file — the tree at the
moment of the throw is exactly the tree before the call: no intermediate
directory has been created and no child replaced. -/
theorem setNode_error_preserves_tree (root : FSNode) (pd : String) (node : FSNode)
    (e : Err) (t2 : FSNode) (h : setNode root pd node = .error (e, t2)) : t2 = root := by
  unfold setNode at h
  by_cases h1 : hasForbiddenChar node.name
  · simp [h1] at h
    exact h.2.symm
  · by_cases h2 : node.name.length < 1
    · simp [h1, h2] at h
      exact h.2.symm
    · simp [h1, h2] at h
      exact setNodeAux_error_eq _ _ _ _ _ h

/-- Witness for C7: `setNode` into a parent path whose first segment is
an existing file throws `InvalidOperationError` and the carried tree is
the untouched original. -/
theorem setNode_error_preserves_tree_witness :
    setNode (.dir "" [.file "f" none none "m"]) "/f/x" (.file "a" none none "") =
        .error (.invalidOperation, .dir "" [.file "f" none none "m"])
    ∧ FSNode.dir "" [FSNode.file "f" none none "m"] =
        FSNode.dir "" [FSNode.file "f" none none "m"] :=
  ⟨rfl, setNode_error_preserves_tree (.dir "" [.file "f" none none "m"]) "/f/x"
    (.file "a" none none "") .invalidOperation (.dir "" [.file "f" none none "m"]) rfl⟩

theorem linkOrder_linksValid (s : UploadState) (h : linkOrder s) :
    ∀ c ∈ s.chunks, c.link < s.store.length := by
  intro c hc
  have : c.link ∈ s.chunks.map Chunk.link := List.mem_map_of_mem _ hc
  rw [h] at this
  exact List.mem_range.mp this

theorem mapM_congr_mem (f g : Chunk → Option Bytes) (l : List Chunk)
    (h : ∀ c ∈ l, f c = g c) : l.mapM f = l.mapM g := by
  induction l with
  | nil => rfl
  | cons x rest ih =>
    rw [List.mapM_cons, List.mapM_cons, h x (by simp),
      ih (fun c hc => h c (by simp [hc]))]

theorem flush_inv (enc : Bytes → Bytes → Bytes) (dec : Bytes → Bytes → Option Bytes)
    (ivs : Nat → Bytes) (s : UploadState) (consumed : Bytes)
    (hc : ∀ p iv, dec (enc p iv) iv = some p)
    (h : uploadInv dec s consumed) :
    uploadInv dec (flush enc ivs s) consumed ∧ (flush enc ivs s).buffer = [] := by
  obtain ⟨hord, pl, hdec, hsum⟩ := h
  have hvalid := linkOrder_linksValid s hord
  refine ⟨⟨?_, pl ++ [s.buffer.flatten], ?_, ?_⟩, rfl⟩
  · simp only [linkOrder, flush, List.map_append, List.length_append, List.map_cons,
      List.map_nil, List.length_cons, List.length_nil]
    rw [hord, List.range_succ]
  · simp only [decryptChunks, flush]
    rw [List.mapM_append]
    have hold : (s.chunks.mapM fun c =>
        ((s.store ++ [enc s.buffer.flatten (ivs s.ivCounter)]).get? c.link).bind
          (fun ct => dec ct c.iv)) = some pl := by
      rw [mapM_congr_mem _ (fun c => (s.store.get? c.link).bind (fun ct => dec ct c.iv))]
      · exact hdec
      · intro c hcm
        rw [List.get?_append (hvalid c hcm)]
    rw [hold]
    simp [List.mapM, List.mapM.loop, List.get?_concat_length, hc]
  · simp only [flush, List.flatten_append, List.flatten_cons, List.flatten_nil,
      List.append_nil, List.append_assoc]
    simpa using hsum

theorem writeStep_inv (enc : Bytes → Bytes → Bytes) (dec : Bytes → Bytes → Option Bytes)
    (ivs : Nat → Bytes) (s : UploadState) (b : Bytes) (consumed : Bytes)
    (hc : ∀ p iv, dec (enc p iv) iv = some p)
    (h : uploadInv dec s consumed) :
    uploadInv dec (writeStep enc ivs s b) (consumed ++ b) := by
  by_cases hcase : bytesInBuffer s.buffer + b.length ≤ MaxChunkSize
  · have hstep : writeStep enc ivs s b = { s with buffer := s.buffer ++ [b] } := by
      simp [writeStep, hcase]
    rw [hstep]
    obtain ⟨hord, pl, hdec, hsum⟩ := h
    refine ⟨?_, pl, ?_, ?_⟩
    · simpa [linkOrder] using hord
    · simpa [decryptChunks] using hdec
    · simp [← hsum]
  · have hstep : writeStep enc ivs s b = { flush enc ivs s with buffer := [b] } := by
      simp [writeStep, hcase]
    rw [hstep]
    obtain ⟨⟨hord, pl, hdec, hsum⟩, hbuf⟩ := flush_inv enc dec ivs s consumed hc h
    rw [hbuf] at hsum
    refine ⟨?_, pl, ?_, ?_⟩
    · simpa [linkOrder] using hord
    · simpa [decryptChunks] using hdec
    · simp at hsum
      simp [hsum]

theorem fold_inv (enc : Bytes → Bytes → Bytes) (dec : Bytes → Bytes → Option Bytes)
    (ivs : Nat → Bytes) (writes : List Bytes) (s : UploadState) (consumed : Bytes)
    (hc : ∀ p iv, dec (enc p iv) iv = some p)
    (h : uploadInv dec s consumed) :
    uploadInv dec (writes.foldl (writeStep enc ivs) s) (consumed ++ writes.flatten) := by
  induction writes generalizing s consumed with
  | nil => simpa using h
  | cons w rest ih =>
    have h1 := writeStep_inv enc dec ivs s w consumed hc h
    have h2 := ih (writeStep enc ivs s w) (consumed ++ w) h1
    simpa [List.append_assoc] using h2

theorem fold_chunks_le (enc : Bytes → Bytes → Bytes) (ivs : Nat → Bytes)
    (writes : List Bytes) (s : UploadState) :
    s.chunks.length ≤ ((writes.foldl (writeStep enc ivs) s).chunks).length := by
  induction writes generalizing s with
  | nil => simp
  | cons w rest ih =>
    refine le_trans ?_ (ih (writeStep enc ivs s w))
    by_cases hcase : bytesInBuffer s.buffer + w.length ≤ MaxChunkSize
    · simp [writeStep, hcase]
    · simp [writeStep, hcase, flush]

theorem fold_chunks_nil (enc : Bytes → Bytes → Bytes) (ivs : Nat → Bytes)
    (writes : List Bytes) (s : UploadState) (h0 : s.chunks = [])
    (h : ((writes.foldl (writeStep enc ivs) s).chunks) = []) :
    bytesInBuffer ((writes.foldl (writeStep enc ivs) s).buffer) =
      bytesInBuffer s.buffer + (writes.map List.length).sum ∧
    (writes = [] ∨
      bytesInBuffer ((writes.foldl (writeStep enc ivs) s).buffer) ≤ MaxChunkSize) := by
  induction writes generalizing s with
  | nil => exact ⟨by simp, Or.inl rfl⟩
  | cons w rest ih =>
    by_cases hcase : bytesInBuffer s.buffer + w.length ≤ MaxChunkSize
    · have hstep : writeStep enc ivs s w = { s with buffer := s.buffer ++ [w] } := by
        simp [writeStep, hcase]
      rw [List.foldl_cons, hstep] at h ⊢
      have h1 := ih { s with buffer := s.buffer ++ [w] } (by simpa using h0) h
      constructor
      · rw [h1.1]
        simp [bytesInBuffer_append]
        omega
      · refine Or.inr ?_
        rcases h1.2 with hrest | hle
        · subst hrest
          simpa [bytesInBuffer_append] using hcase
        · exact hle
    · exfalso
      have hstep : (writeStep enc ivs s w).chunks = s.chunks ++
          [⟨(enc s.buffer.flatten (ivs s.ivCounter)).length, s.store.length,
            ivs s.ivCounter⟩] := by
        simp [writeStep, hcase, flush]
      have hle := fold_chunks_le enc ivs rest (writeStep enc ivs s w)
      rw [List.foldl_cons] at h
      rw [h] at hle
      simp [hstep, h0] at hle

/-- C1: for every sequence of writes, after `close` the manifest lists
its chunks in flush order (link `i` belongs to the `i`-th flush), every
chunk's stored ciphertext decrypts under the chunk's iv and the stream
key, the concatenation of the plaintexts in manifest order is exactly
the concatenation of the original writes, and when the total written
size exceeds `MaxChunkSize` the manifest holds more than one chunk. -/
theorem upload_download_roundtrip (enc : Bytes → Bytes → Bytes)
    (dec : Bytes → Bytes → Option Bytes) (ivs : Nat → Bytes) (writes : List Bytes)
    (hc : ∀ p iv, dec (enc p iv) iv = some p) :
    ((runUpload enc ivs writes).chunks.map Chunk.link =
        List.range (runUpload enc ivs writes).chunks.length)
    ∧ (∃ pts, decryptChunks dec (runUpload enc ivs writes).store
          (runUpload enc ivs writes).chunks = some pts
        ∧ pts.flatten = writes.flatten)
    ∧ (MaxChunkSize < (writes.map List.length).sum →
        1 < (runUpload enc ivs writes).chunks.length) := by
  have hinit : uploadInv dec initUploadState [] := by
    exact ⟨by simp [linkOrder, initUploadState], [],
      by simp [decryptChunks, initUploadState, List.mapM, List.mapM.loop], rfl⟩
  have hfold := fold_inv enc dec ivs writes initUploadState [] hc hinit
  have hclose := flush_inv enc dec ivs (writes.foldl (writeStep enc ivs) initUploadState)
    ([] ++ writes.flatten) hc hfold
  obtain ⟨⟨hord, pl, hdec, hsum⟩, hbuf⟩ := hclose
  have hrun : runUpload enc ivs writes =
      flush enc ivs (writes.foldl (writeStep enc ivs) initUploadState) := rfl
  refine ⟨?_, ⟨pl, ?_, ?_⟩, ?_⟩
  · rw [hrun]
    have hlen : (flush enc ivs (writes.foldl (writeStep enc ivs) initUploadState)).chunks.length
        = (flush enc ivs (writes.foldl (writeStep enc ivs) initUploadState)).store.length := by
      have := congrArg List.length hord
      simpa using this
    rw [hlen]
    exact hord
  · rw [hrun]; exact hdec
  · rw [hbuf] at hsum
    simpa using hsum
  · intro htot
    have hne : ((writes.foldl (writeStep enc ivs) initUploadState).chunks) ≠ [] := by
      intro hnil
      have h1 := fold_chunks_nil enc ivs writes initUploadState rfl hnil
      rcases h1.2 with hw | hle
      · subst hw; simp at htot
      · rw [h1.1] at hle
        have hsle : (writes.map List.length).sum ≤ MaxChunkSize := by
          simpa [initUploadState, bytesInBuffer] using hle
        omega
    rw [hrun]
    simp only [flush, List.length_append, List.length_cons, List.length_nil]
    have := List.length_pos.mpr hne
    omega

/-- Witness for C1 with the identity cipher: two writes round-trip. -/
theorem upload_download_roundtrip_witness :
    ((runUpload (fun p _ => p) (fun _ => []) [[1, 2], [3]]).chunks.map Chunk.link =
        List.range (runUpload (fun p _ => p) (fun _ => []) [[1, 2], [3]]).chunks.length)
    ∧ (∃ pts, decryptChunks (fun ct _ => some ct)
          (runUpload (fun p _ => p) (fun _ => []) [[1, 2], [3]]).store
          (runUpload (fun p _ => p) (fun _ => []) [[1, 2], [3]]).chunks = some pts
        ∧ pts.flatten = ([[1, 2], [3]] : List Bytes).flatten)
    ∧ (MaxChunkSize < (([[1, 2], [3]] : List Bytes).map List.length).sum →
        1 < (runUpload (fun p _ => p) (fun _ => []) [[1, 2], [3]]).chunks.length) :=
  upload_download_roundtrip (fun p _ => p) (fun ct _ => some ct) (fun _ => [])
    [[1, 2], [3]] (fun _ _ => rfl)

/-- The `setNode` walk can only throw `InvalidOperationError`. -/
theorem setNodeAux_error_kind (segs : List String) (t node : FSNode) (e : Err)
    (t2 : FSNode) (h : setNodeAux t segs node = .error (e, t2)) : e = .invalidOperation := by
  induction segs generalizing t e t2 with
  | nil =>
    cases t with
    | file fn sz cd mu => simp [setNodeAux] at h; exact h.1.symm
    | dir dn cs => simp [setNodeAux] at h
  | cons s rest ih =>
    cases t with
    | file fn sz cd mu => simp [setNodeAux] at h; exact h.1.symm
    | dir dn cs =>
      cases hf : findChild cs s with
      | none =>
        obtain ⟨t3, ht3⟩ := setNodeAux_fresh rest s node
        simp [setNodeAux, hf, ht3] at h
      | some child =>
        by_cases hd : child.isDir
        · cases hrec : setNodeAux child rest node with
          | ok sub => simp [setNodeAux, hf, hd, hrec] at h
          | error pr =>
            obtain ⟨e2, sub⟩ := pr
            simp [setNodeAux, hf, hd, hrec] at h
            rw [← h.1]
            exact ih child e2 sub hrec
        · simp [setNodeAux, hf, hd] at h
          exact h.1.symm

/-- `setNode` never throws the authentication failure. -/
theorem setNode_error_not_auth (root : FSNode) (pd : String) (node : FSNode) (e : Err)
    (t2 : FSNode) (h : setNode root pd node = .error (e, t2)) :
    e ≠ .authenticationFailure := by
  unfold setNode at h
  by_cases h1 : hasForbiddenChar node.name
  · simp [h1] at h
    rw [← h.1]
    simp
  · by_cases h2 : node.name.length < 1
    · simp [h1, h2] at h
      rw [← h.1]
      simp
    · simp [h1, h2] at h
      rw [setNodeAux_error_kind _ _ _ _ _ h]
      simp

/-- Processing a run of non-blank header lines whose `Encryption-Key-Hash`
entries (if any) match the supplied passphrase leaves header mode intact,
touches only the header map, and never fails. -/
theorem runImport_header_section (hash : String → String) (mk : String)
    (pre : List String) (st : ImportState) (hdh : st.doneHeaders = false)
    (hpre : ∀ l ∈ pre, l ≠ "" ∧ ((parseHeaderLine l).1 = "Encryption-Key-Hash" →
      (parseHeaderLine l).2 = keyHashHex hash mk)) :
    ∃ hs, runImport hash mk st pre = .ok ⟨false, hs, st.root⟩ := by
  induction pre generalizing st with
  | nil =>
    refine ⟨st.headers, ?_⟩
    cases st with
    | mk dh hh rt =>
      simp only at hdh
      subst hdh
      rfl
  | cons l rest ih =>
    have hl := hpre l (by simp)
    have hlen : ¬ (l.length < 1) := by
      rw [length_lt_one_iff]; exact hl.1
    have hcond : ¬ ((parseHeaderLine l).1 = "Encryption-Key-Hash" ∧
        keyHashHex hash mk ≠ (parseHeaderLine l).2) := by
      rintro ⟨ha, hb⟩
      exact hb (hl.2 ha).symm
    have hstep : importLine hash mk st l = .ok { st with
        headers := hset st.headers (parseHeaderLine l).1 (parseHeaderLine l).2 } := by
      simp [importLine, hdh, hlen, hcond]
    obtain ⟨hs, hrest⟩ := ih
      { st with headers := hset st.headers (parseHeaderLine l).1 (parseHeaderLine l).2 }
      (by simpa using hdh)
      (fun x hx => hpre x (by simp [hx]))
    refine ⟨hs, ?_⟩
    rw [runImport, hstep]
    exact hrest

theorem runImport_append_ok (hash : String → String) (mk : String)
    (l1 l2 : List String) (st st1 : ImportState)
    (h : runImport hash mk st l1 = .ok st1) :
    runImport hash mk st (l1 ++ l2) = runImport hash mk st1 l2 := by
  induction l1 generalizing st with
  | nil =>
    simp only [runImport] at h
    cases h
    rfl
  | cons a t ih =>
    rw [runImport] at h
    rw [List.cons_append, runImport]
    cases hstep : importLine hash mk st a with
    | ok stx =>
      rw [hstep] at h
      exact ih stx h
    | error e =>
      rw [hstep] at h
      exact Except.noConfusion h

/-- A mismatching `Encryption-Key-Hash` header line in the header section
aborts the import with the authentication failure while the tree is still
the one the walk started with. -/
theorem runImport_keyhash_mismatch (hash : String → String) (mk : String)
    (pre post : List String) (khLine v : String) (st : ImportState)
    (hdh : st.doneHeaders = false)
    (hpre : ∀ l ∈ pre, l ≠ "" ∧ ((parseHeaderLine l).1 = "Encryption-Key-Hash" →
      (parseHeaderLine l).2 = keyHashHex hash mk))
    (hkh0 : khLine ≠ "")
    (hkh1 : (parseHeaderLine khLine).1 = "Encryption-Key-Hash")
    (hkh2 : (parseHeaderLine khLine).2 = v)
    (hv : v ≠ keyHashHex hash mk) :
    ∃ hs, runImport hash mk st (pre ++ khLine :: post) =
      .error (.authenticationFailure, ⟨false, hs, st.root⟩) := by
  obtain ⟨hs, hpre2⟩ := runImport_header_section hash mk pre st hdh hpre
  refine ⟨hs, ?_⟩
  have hfail : importLine hash mk ⟨false, hs, st.root⟩ khLine =
      .error (.authenticationFailure, ⟨false, hs, st.root⟩) := by
    have hlen : ¬ (khLine.length < 1) := by
      rw [length_lt_one_iff]; exact hkh0
    have hcond : (parseHeaderLine khLine).1 = "Encryption-Key-Hash" ∧
        keyHashHex hash mk ≠ (parseHeaderLine khLine).2 :=
      ⟨hkh1, by rw [hkh2]; exact fun hh => hv hh.symm⟩
    simp [importLine, hlen, hcond]
  rw [runImport_append_ok hash mk pre (khLine :: post) st ⟨false, hs, st.root⟩ hpre2,
    runImport, hfail]

/-- When every `Encryption-Key-Hash` line of the header section carries
the hash of the supplied passphrase, the import never fails with the
authentication failure (any failure comes from `setNode` on a record). -/
theorem runImport_no_auth (hash : String → String) (mk : String) (lines : List String)
    (st : ImportState)
    (hmatch : st.doneHeaders = false → ∀ l ∈ lines.takeWhile (fun x => x != ""),
      (parseHeaderLine l).1 = "Encryption-Key-Hash" →
        (parseHeaderLine l).2 = keyHashHex hash mk) :
    ∀ e st2, runImport hash mk st lines = .error (e, st2) → e ≠ .authenticationFailure := by
  induction lines generalizing st with
  | nil =>
    intro e st2 h
    simp [runImport] at h
  | cons l rest ih =>
    intro e st2 h
    rw [runImport] at h
    by_cases hdh : st.doneHeaders = false
    · by_cases hl : l = ""
      · subst hl
        have hstep : importLine hash mk st "" = .ok { st with doneHeaders := true } := by
          simp [importLine, hdh]
        rw [hstep] at h
        exact ih { st with doneHeaders := true } (by intro hq; simp at hq) e st2 h
      · have hmem : l ∈ (l :: rest).takeWhile (fun x => x != "") := by
          simp [List.takeWhile_cons, hl]
        have hkv := hmatch hdh l hmem
        have hlen : ¬ (l.length < 1) := by
          rw [length_lt_one_iff]; exact hl
        have hcond : ¬ ((parseHeaderLine l).1 = "Encryption-Key-Hash" ∧
            keyHashHex hash mk ≠ (parseHeaderLine l).2) := by
          rintro ⟨ha, hb⟩
          exact hb (hkv ha).symm
        have hstep : importLine hash mk st l = .ok { st with
            headers := hset st.headers (parseHeaderLine l).1 (parseHeaderLine l).2 } := by
          simp [importLine, hdh, hlen, hcond]
        rw [hstep] at h
        refine ih _ ?_ e st2 h
        intro _ l2 hl2
        refine hmatch hdh l2 ?_
        rw [List.takeWhile_cons, if_pos (by simpa using hl)]
        exact List.mem_cons_of_mem _ hl2
    · cases hstep : importLine hash mk st l with
      | ok st1 =>
        rw [hstep] at h
        refine ih st1 ?_ e st2 h
        intro hq
        unfold importLine at hstep
        rw [if_neg hdh] at hstep
        cases hsn : setNode st.root (dirname ((jsSplit isTab l).getD 0 "")) (recordNode l) with
        | ok r =>
          rw [hsn] at hstep
          have hst1 : st1 = { st with root := r } := by
            cases hstep; rfl
          rw [hst1] at hq
          exact absurd hq hdh
        | error pr =>
          rw [hsn] at hstep
          cases hstep
      | error pr =>
        obtain ⟨e3, st3⟩ := pr
        rw [hstep] at h
        have he : e3 = e := by
          cases h
          rfl
        unfold importLine at hstep
        rw [if_neg hdh] at hstep
        cases hsn : setNode st.root (dirname ((jsSplit isTab l).getD 0 "")) (recordNode l) with
        | ok r =>
          rw [hsn] at hstep
          cases hstep
        | error pr2 =>
          obtain ⟨e4, r⟩ := pr2
          rw [hsn] at hstep
          have he2 : e4 = e3 := by
            cases hstep; rfl
          rw [← he, ← he2]
          exact setNode_error_not_auth _ _ _ _ _ hsn

/-- C6: during restore, an `Encryption-Key-Hash` header whose stored
value differs from the hash of the supplied passphrase makes `init` fail
with the authentication failure while still in header mode and with the
tree still the fresh empty root — before any file record line has been
parsed or any node inserted (first part).  With the correct passphrase —
every stored hash in the header section equal to the passphrase's hash —
the import never raises this failure (second part; any error is a
`setNode` validation error from a record line). -/
theorem init_keyhash_check (hash : String → String) (mk saltHex dateStr : String)
    (blob : String) :
    (∀ pre khLine post v, jsSplit isNl blob = pre ++ khLine :: post →
      (∀ l ∈ pre, l ≠ "" ∧ ((parseHeaderLine l).1 = "Encryption-Key-Hash" →
        (parseHeaderLine l).2 = keyHashHex hash mk)) →
      khLine ≠ "" →
      (parseHeaderLine khLine).1 = "Encryption-Key-Hash" →
      (parseHeaderLine khLine).2 = v →
      v ≠ keyHashHex hash mk →
      ∃ hs, initFS hash mk saltHex dateStr (some blob) =
        .error (.authenticationFailure, ⟨false, hs, emptyRoot⟩))
    ∧ ((∀ l ∈ (jsSplit isNl blob).takeWhile (fun x => x != ""),
        (parseHeaderLine l).1 = "Encryption-Key-Hash" →
          (parseHeaderLine l).2 = keyHashHex hash mk) →
      ∀ e st2, initFS hash mk saltHex dateStr (some blob) = .error (e, st2) →
        e ≠ .authenticationFailure) := by
  constructor
  · intro pre khLine post v hsplit hpre hkh0 hkh1 hkh2 hv
    rw [initFS, hsplit]
    exact runImport_keyhash_mismatch hash mk pre post khLine v
      ⟨false, initialHeaders saltHex dateStr (keyHashHex hash mk), emptyRoot⟩
      rfl hpre hkh0 hkh1 hkh2 hv
  · intro hmatch e st2 h
    rw [initFS] at h
    exact runImport_no_auth hash mk (jsSplit isNl blob)
      ⟨false, initialHeaders saltHex dateStr (keyHashHex hash mk), emptyRoot⟩
      (fun _ => hmatch) e st2 h

/-- Witness for C6: restoring the one-header blob
`Encryption-Key-Hash: WRONG` with the identity hash and passphrase `k`
fails with the authentication failure on the untouched empty root. -/
theorem init_keyhash_check_witness :
    ∃ hs, initFS (fun s => s) "k" "aa" "dd" (some "Encryption-Key-Hash: WRONG") =
      .error (.authenticationFailure, ⟨false, hs, emptyRoot⟩) :=
  (init_keyhash_check (fun s => s) "k" "aa" "dd" "Encryption-Key-Hash: WRONG").1
    [] "Encryption-Key-Hash: WRONG" [] "WRONG" rfl (by simp) (by decide) (by decide)
    (by decide) (by decide)

/-! ## Split/join inversion lemmas -/

theorem splitCh_ne_nil (p : Char → Bool) (l : List Char) : splitCh p l ≠ [] := by
  induction l with
  | nil => simp [splitCh]
  | cons c rest ih =>
    by_cases hc : p c
    · simp [splitCh, hc]
    · simp only [splitCh, hc, Bool.false_eq_true, if_false]
      cases hs : splitCh p rest with
      | nil => simp
      | cons h t => simp

theorem splitCh_nosep (p : Char → Bool) (l : List Char) (h : ∀ c ∈ l, p c = false) :
    splitCh p l = [l] := by
  induction l with
  | nil => rfl
  | cons c rest ih =>
    have hc : p c = false := h c (by simp)
    rw [splitCh, if_neg (by simp [hc]), ih (fun x hx => h x (by simp [hx]))]

theorem splitCh_sep (p : Char → Bool) (sep : Char) (hsep : p sep = true)
    (l r : List Char) : splitCh p (l ++ sep :: r) = splitCh p l ++ splitCh p r := by
  induction l with
  | nil => simp [splitCh, hsep]
  | cons c t ih =>
    by_cases hc : p c
    · have h1 : splitCh p (c :: (t ++ sep :: r)) = [] :: splitCh p (t ++ sep :: r) := by
        rw [splitCh, if_pos hc]
      have h2 : splitCh p (c :: t) = [] :: splitCh p t := by
        rw [splitCh, if_pos hc]
      rw [List.cons_append, h1, ih, h2]
      rfl
    · rw [List.cons_append]
      have h1 : splitCh p (c :: (t ++ sep :: r)) =
          match splitCh p (t ++ sep :: r) with
          | h :: tl => (c :: h) :: tl
          | [] => [[c]] := by
        rw [splitCh, if_neg hc]
      cases hs : splitCh p t with
      | nil => exact absurd hs (splitCh_ne_nil p t)
      | cons hh tt =>
        have h2 : splitCh p (c :: t) = (c :: hh) :: tt := by
          rw [splitCh, if_neg hc, hs]
        rw [h1, ih, hs, h2]
        rfl

theorem splitCh_pieces_nosep (p : Char → Bool) (l : List Char) :
    ∀ piece ∈ splitCh p l, ∀ c ∈ piece, p c = false := by
  induction l with
  | nil =>
    intro piece hp c hc
    simp [splitCh] at hp
    subst hp
    simp at hc
  | cons a t ih =>
    intro piece hp c hc
    by_cases ha : p a
    · simp only [splitCh, ha, if_true, List.mem_cons] at hp
      rcases hp with hp | hp
      · subst hp; simp at hc
      · exact ih piece hp c hc
    · simp only [splitCh, ha, Bool.false_eq_true, if_false] at hp
      cases hs : splitCh p t with
      | nil => exact absurd hs (splitCh_ne_nil p t)
      | cons hh tt =>
        rw [hs] at hp
        simp only [List.mem_cons] at hp
        rcases hp with hp | hp
        · subst hp
          simp only [List.mem_cons] at hc
          rcases hc with hc | hc
          · subst hc
            exact Bool.not_eq_true _ ▸ (by simpa using ha)
          · exact ih hh (by rw [hs]; simp) c hc
        · exact ih piece (by rw [hs]; simp [hp]) c hc

theorem splitCh_pieces_subset (p : Char → Bool) (l : List Char) :
    ∀ piece ∈ splitCh p l, ∀ c ∈ piece, c ∈ l := by
  induction l with
  | nil =>
    intro piece hp c hc
    simp [splitCh] at hp
    subst hp
    simp at hc
  | cons a t ih =>
    intro piece hp c hc
    by_cases ha : p a
    · simp only [splitCh, ha, if_true, List.mem_cons] at hp
      rcases hp with hp | hp
      · subst hp; simp at hc
      · exact List.mem_cons_of_mem _ (ih piece hp c hc)
    · simp only [splitCh, ha, Bool.false_eq_true, if_false] at hp
      cases hs : splitCh p t with
      | nil => exact absurd hs (splitCh_ne_nil p t)
      | cons hh tt =>
        rw [hs] at hp
        simp only [List.mem_cons] at hp
        rcases hp with hp | hp
        · subst hp
          simp only [List.mem_cons] at hc
          rcases hc with hc | hc
          · simp [hc]
          · exact List.mem_cons_of_mem _ (ih hh (by rw [hs]; simp) c hc)
        · exact List.mem_cons_of_mem _ (ih piece (by rw [hs]; simp [hp]) c hc)

theorem splitCh_congr (p q : Char → Bool) (l : List Char) (h : ∀ c ∈ l, p c = q c) :
    splitCh p l = splitCh q l := by
  induction l with
  | nil => rfl
  | cons a t ih =>
    rw [splitCh, splitCh, h a (by simp), ih (fun c hc => h c (by simp [hc]))]

theorem string_mk_data (s : String) : (⟨s.data⟩ : String) = s := by
  cases s
  rfl

theorem joinSegs_data_cons (sep : Char) (s : String) (s2 : String) (rest : List String) :
    (joinSegs sep (s :: s2 :: rest)).data =
      s.data ++ sep :: (joinSegs sep (s2 :: rest)).data := by
  rfl

theorem splitCh_joinSegs (p : Char → Bool) (sep : Char) (hsep : p sep = true)
    (segs : List String) (hne : segs ≠ [])
    (hfree : ∀ s ∈ segs, ∀ c ∈ s.data, p c = false) :
    splitCh p (joinSegs sep segs).data = segs.map String.data := by
  induction segs with
  | nil => cases hne rfl
  | cons s rest ih =>
    cases rest with
    | nil =>
      show splitCh p s.data = [s.data]
      exact splitCh_nosep p s.data (hfree s (by simp))
    | cons s2 rest2 =>
      rw [joinSegs_data_cons, splitCh_sep p sep hsep,
        splitCh_nosep p s.data (hfree s (by simp)),
        ih (by simp) (fun x hx => hfree x (by simp [hx]))]
      rfl

theorem map_mk_data (l : List String) :
    (l.map String.data).map (fun d => (⟨d⟩ : String)) = l := by
  induction l with
  | nil => rfl
  | cons a t ih => simp [string_mk_data, ih]

theorem mkPath_data (segs : List String) :
    (mkPath segs).data = '/' :: (joinSegs '/' segs).data := by
  show (("/" : String) ++ joinSegs '/' segs).data = _
  rw [String.data_append]
  rfl

theorem jsSplit_mkPath_p (p : Char → Bool) (hp : p '/' = true) (segs : List String)
    (hne : segs ≠ []) (hfree : ∀ s ∈ segs, ∀ c ∈ s.data, p c = false) :
    jsSplit p (mkPath segs) = "" :: segs := by
  rw [jsSplit, mkPath_data, splitCh, if_pos hp, splitCh_joinSegs p '/' hp segs hne hfree,
    List.map_cons, map_mk_data]

theorem jsSplit_mkPath (segs : List String) (hne : segs ≠ [])
    (hfree : ∀ s ∈ segs, ∀ c ∈ s.data, isFwd c = false) :
    jsSplit isFwd (mkPath segs) = "" :: segs :=
  jsSplit_mkPath_p isFwd rfl segs hne hfree

theorem pathSegments_mkPath (segs : List String) (hne : ∀ s ∈ segs, s ≠ "")
    (hfree : ∀ s ∈ segs, ∀ c ∈ s.data, isFwd c = false) :
    pathSegments (mkPath segs) = segs := by
  cases segs with
  | nil => rfl
  | cons a t =>
    rw [pathSegments, jsSplit_mkPath (a :: t) (by simp) hfree]
    rw [List.filter_cons]
    rw [if_neg (by simp)]
    exact List.filter_eq_self.mpr (fun x hx => by
      simpa using hne x (by simp [hx]))

/-! ## Lookup after insertion -/

theorem findChild_filter_append (cs : List FSNode) (node : FSNode) :
    findChild ((cs.filter (fun c => c.name ≠ node.name)) ++ [node]) node.name = some node := by
  induction cs with
  | nil =>
    rw [List.filter_nil, List.nil_append, findChild,
      List.find?_cons_of_pos (p := fun (c : FSNode) => c.name == node.name) _ (by simp)]
  | cons x rest ih =>
    by_cases hx : x.name = node.name
    · rw [List.filter_cons, if_neg (by simp [hx])]
      exact ih
    · rw [List.filter_cons, if_pos (by simp [hx]), List.cons_append, findChild,
        List.find?_cons_of_neg (p := fun (c : FSNode) => c.name == node.name) _ (by simp [hx])]
      exact ih

theorem findChild_append_of_none (cs : List FSNode) (s : String) (sub : FSNode)
    (h : findChild cs s = none) (hn : sub.name = s) : findChild (cs ++ [sub]) s = some sub := by
  induction cs with
  | nil =>
    rw [List.nil_append, findChild,
      List.find?_cons_of_pos (p := fun (c : FSNode) => c.name == s) _ (by simp [hn])]
  | cons x rest ih =>
    rw [findChild] at h
    by_cases hx : x.name = s
    · rw [List.find?_cons_of_pos (p := fun (c : FSNode) => c.name == s) _ (by simp [hx])] at h
      cases h
    · rw [List.find?_cons_of_neg (p := fun (c : FSNode) => c.name == s) _ (by simp [hx])] at h
      rw [List.cons_append, findChild,
        List.find?_cons_of_neg (p := fun (c : FSNode) => c.name == s) _ (by simp [hx])]
      exact ih h

theorem findChild_replaceFirst (cs : List FSNode) (s : String) (child sub : FSNode)
    (h : findChild cs s = some child) (hn : sub.name = s) :
    findChild (replaceFirst cs s sub) s = some sub := by
  induction cs with
  | nil => simp [findChild] at h
  | cons x rest ih =>
    rw [findChild] at h
    by_cases hx : x.name = s
    · rw [replaceFirst, if_pos (by simp [hx]), findChild,
        List.find?_cons_of_pos (p := fun (c : FSNode) => c.name == s) _ (by simp [hn])]
    · rw [List.find?_cons_of_neg (p := fun (c : FSNode) => c.name == s) _ (by simp [hx])] at h
      rw [replaceFirst, if_neg (by simp [hx]), findChild,
        List.find?_cons_of_neg (p := fun (c : FSNode) => c.name == s) _ (by simp [hx])]
      exact ih h

/-- A successful `setNode` walk keeps the root's name and produces a
directory. -/
theorem setNodeAux_name (segs : List String) (t node t2 : FSNode)
    (h : setNodeAux t segs node = .ok t2) :
    t2.name = t.name ∧ t2.isDir = true := by
  induction segs generalizing t t2 with
  | nil =>
    cases t with
    | file fn sz cd mu => exact Except.noConfusion h
    | dir dn cs =>
      simp only [setNodeAux] at h
      cases h
      exact ⟨rfl, rfl⟩
  | cons s rest ih =>
    cases t with
    | file fn sz cd mu => exact Except.noConfusion h
    | dir dn cs =>
      cases hf : findChild cs s with
      | none =>
        cases hrec : setNodeAux (.dir s []) rest node with
        | ok sub =>
          simp only [setNodeAux, hf, hrec, Except.ok.injEq] at h
          subst h
          exact ⟨rfl, rfl⟩
        | error e =>
          simp [setNodeAux, hf, hrec] at h
      | some child =>
        by_cases hd : child.isDir
        · cases hrec : setNodeAux child rest node with
          | ok sub =>
            simp only [setNodeAux, hf, hd, if_true] at h
            rw [hrec] at h
            simp only [Except.ok.injEq] at h
            subst h
            exact ⟨rfl, rfl⟩
          | error e =>
            simp [setNodeAux, hf, hd, hrec] at h
        · simp [setNodeAux, hf, hd] at h

/-- Get-after-set: after a successful `setNode` walk along `segs`, the
node is found at `segs ++ [node.name]`. -/
theorem getNodeAux_after_set (segs : List String) (t node t2 : FSNode)
    (h : setNodeAux t segs node = .ok t2) :
    getNodeAux t2 (segs ++ [node.name]) = some node := by
  induction segs generalizing t t2 with
  | nil =>
    cases t with
    | file fn sz cd mu => exact Except.noConfusion h
    | dir dn cs =>
      simp only [setNodeAux] at h
      cases h
      rw [List.nil_append, getNodeAux, findChild_filter_append]
      simp [getNodeAux]
  | cons s rest ih =>
    cases t with
    | file fn sz cd mu => exact Except.noConfusion h
    | dir dn cs =>
      cases hf : findChild cs s with
      | none =>
        cases hrec : setNodeAux (.dir s []) rest node with
        | ok sub =>
          simp only [setNodeAux, hf, hrec, Except.ok.injEq] at h
          subst h
          have hname : sub.name = s := (setNodeAux_name rest _ node sub hrec).1
          rw [List.cons_append, getNodeAux, findChild_append_of_none cs s sub hf hname]
          exact ih _ _ hrec
        | error e =>
          simp [setNodeAux, hf, hrec] at h
      | some child =>
        by_cases hd : child.isDir
        · cases hrec : setNodeAux child rest node with
          | ok sub =>
            simp only [setNodeAux, hf, hd, if_true] at h
            rw [hrec] at h
            simp only [Except.ok.injEq] at h
            subst h
            have hcn : child.name = s := by
              have := List.find?_some hf
              simpa using this
            have hname : sub.name = s := by
              rw [(setNodeAux_name rest _ node sub hrec).1, hcn]
            rw [List.cons_append, getNodeAux, findChild_replaceFirst cs s child sub hf hname]
            exact ih _ _ hrec
          | error e =>
            simp [setNodeAux, hf, hd, hrec] at h
        · simp [setNodeAux, hf, hd] at h

/-- When the walk's parent path resolves to an existing directory,
`setNode`'s walk succeeds. -/
theorem setNodeAux_succeeds (segs : List String) (t : FSNode) (dn : String)
    (cs : List FSNode) (node : FSNode)
    (hget : getNodeAux t segs = some (.dir dn cs)) :
    ∃ t2, setNodeAux t segs node = .ok t2 := by
  induction segs generalizing t dn cs with
  | nil =>
    rw [getNodeAux] at hget
    cases hget
    exact ⟨_, rfl⟩
  | cons s rest ih =>
    cases t with
    | file fn sz cd mu => exact Option.noConfusion hget
    | dir dn2 cs2 =>
      cases hf : findChild cs2 s with
      | none => simp [getNodeAux, hf] at hget
      | some c =>
        have hget2 : getNodeAux c rest = some (.dir dn cs) := by
          simpa only [getNodeAux, hf] using hget
        have hcd : c.isDir = true := by
          cases c with
          | dir _ _ => rfl
          | file _ _ _ _ =>
            cases rest with
            | nil =>
              rw [getNodeAux] at hget2
              exact FSNode.noConfusion (Option.some.inj hget2)
            | cons r rs => exact Option.noConfusion hget2
        obtain ⟨sub, hsub⟩ := ih c dn cs hget2
        exact ⟨.dir dn2 (replaceFirst cs2 s sub), by simp [setNodeAux, hf, hcd, hsub]⟩

theorem rename_name (n : FSNode) (m : String) : (FSNode.rename n m).name = m := by
  cases n <;> rfl

/-- C5 amended: the claim's directory branch holds with the TARGET's base
name in place of the source's.  If the node at `target` is an existing
directory, a successful `copy(source, target)` places the clone (the
source node renamed to `basename(target)`) at
`target ++ "/" ++ basename(target)`; otherwise the clone is placed
exactly at `target` — named `basename(target)` — replacing any node
already there. -/
theorem copy_amended (root src : FSNode) (source target : String)
    (hnb : ¬ ('\\' ∈ target.data))
    (hsrc : getNode root source = some src)
    (hb : basename target ≠ "")
    (hbfc : hasForbiddenChar (basename target) = false) :
    (∀ tn tcs, getNode root target = some (.dir tn tcs) →
      ∃ t2, copy root source target = .ok t2 ∧
        getNode t2 (target ++ "/" ++ basename target) =
          some (src.rename (basename target))) ∧
    ((∀ tn tcs, getNode root target ≠ some (.dir tn tcs)) →
      ∀ t2, copy root source target = .ok t2 →
        getNode t2 target = some (src.rename (basename target))) := by
  -- the two split predicates agree on backslash-free strings
  have hcongr : splitCh isSlash target.data = splitCh isFwd target.data := by
    refine splitCh_congr isSlash isFwd target.data ?_
    intro c hc
    have hcb : c ≠ '\\' := fun hceq => hnb (hceq ▸ hc)
    simp [isSlash, isFwd, hcb]
  -- decompose the raw pieces of target around the last one
  have hnn := splitCh_ne_nil isFwd target.data
  obtain ⟨ps, b0, hps⟩ : ∃ ps b0, splitCh isFwd target.data = ps ++ [b0] :=
    ⟨(splitCh isFwd target.data).dropLast, (splitCh isFwd target.data).getLast hnn,
      (List.dropLast_append_getLast hnn).symm⟩
  have hbase : basename target = ⟨b0⟩ := by
    rw [basename, jsSplit, hcongr, hps, List.map_append, List.map_cons, List.map_nil,
      List.getLastD_concat]
  have hbdata : (basename target).data = b0 := by rw [hbase]
  have hb0free : ∀ c ∈ b0, isFwd c = false :=
    splitCh_pieces_nosep isFwd target.data b0 (by rw [hps]; simp)
  have hb0sub : ∀ c ∈ b0, c ∈ target.data :=
    splitCh_pieces_subset isFwd target.data b0 (by rw [hps]; simp)
  have hpieces_free : ∀ x ∈ jsSplit isFwd target, ∀ c ∈ x.data, isFwd c = false := by
    intro x hx c hc
    rw [jsSplit, List.mem_map] at hx
    obtain ⟨piece, hpm, hxe⟩ := hx
    refine splitCh_pieces_nosep isFwd target.data piece hpm c ?_
    rw [← hxe] at hc
    exact hc
  have hjs : jsSplit isFwd target = (ps.map (fun l => (⟨l⟩ : String))) ++ [basename target] := by
    rw [jsSplit, hps, List.map_append, List.map_cons, List.map_nil, ← hbase]
  have hsegsplit : pathSegments target =
      ((ps.map (fun l => (⟨l⟩ : String))).filter (fun s => s ≠ "")) ++ [basename target] := by
    rw [pathSegments, hjs, List.filter_append, List.filter_cons]
    rw [if_pos (by simpa using hb)]
    rfl
  have hsegdrop : (pathSegments target).dropLast =
      (ps.map (fun l => (⟨l⟩ : String))).filter (fun s => s ≠ "") := by
    rw [hsegsplit, List.dropLast_concat]
  have hseg_ne : ∀ x ∈ pathSegments target, x ≠ "" := by
    intro x hx
    rw [pathSegments] at hx
    have := List.of_mem_filter hx
    simpa using this
  have hseg_free : ∀ x ∈ pathSegments target, ∀ c ∈ x.data, isFwd c = false := by
    intro x hx
    rw [pathSegments] at hx
    exact hpieces_free x (List.mem_of_mem_filter hx)
  -- splitting target ++ "/" ++ basename target
  have hdata2 : (target ++ "/" ++ basename target).data =
      target.data ++ '/' :: (basename target).data := by
    rw [String.data_append, String.data_append]
    simp [show ("/" : String).data = ['/'] from rfl]
  have hsplit2 : splitCh isFwd (target ++ "/" ++ basename target).data =
      (ps ++ [b0]) ++ [b0] := by
    rw [hdata2, splitCh_sep isFwd '/' rfl, hps,
      splitCh_nosep isFwd (basename target).data (by rw [hbdata]; exact hb0free), hbdata]
  have hnb2 : ¬ ('\\' ∈ (target ++ "/" ++ basename target).data) := by
    rw [hdata2]
    intro hmem
    rcases List.mem_append.mp hmem with hmem | hmem
    · exact hnb hmem
    · rcases List.mem_cons.mp hmem with hmem | hmem
      · exact absurd hmem (by decide)
      · rw [hbdata] at hmem
        exact hnb (hb0sub _ hmem)
  have hcongr2 : splitCh isSlash (target ++ "/" ++ basename target).data =
      splitCh isFwd (target ++ "/" ++ basename target).data := by
    refine splitCh_congr isSlash isFwd _ ?_
    intro c hc
    have hcb : c ≠ '\\' := fun hceq => hnb2 (hceq ▸ hc)
    simp [isSlash, isFwd, hcb]
  have hjs2 : jsSplit isFwd (target ++ "/" ++ basename target) =
      jsSplit isFwd target ++ [basename target] := by
    rw [jsSplit, hsplit2, List.map_append, List.map_cons, List.map_nil, ← hbase, ← hps,
      ← jsSplit]
  have hpseg2 : pathSegments (target ++ "/" ++ basename target) =
      pathSegments target ++ [basename target] := by
    rw [pathSegments, hjs2, List.filter_append, List.filter_cons]
    rw [if_pos (by simpa using hb)]
    rfl
  have hbase2 : basename (target ++ "/" ++ basename target) = basename target := by
    rw [basename, jsSplit, hcongr2, hsplit2, List.map_append, List.map_cons, List.map_nil,
      List.getLastD_concat, ← hbase]
  have hdir2 : dirname (target ++ "/" ++ basename target) = mkPath (pathSegments target) := by
    rw [dirname, jsSplit, hcongr2, hsplit2]
    have hmm : ((ps ++ [b0]) ++ [b0]).map (fun l => (⟨l⟩ : String)) =
        jsSplit isFwd target ++ [basename target] := by
      rw [List.map_append, ← hps, ← jsSplit, List.map_cons, List.map_nil, ← hbase]
    rw [hmm, List.filter_append, List.filter_cons]
    rw [if_pos (by simpa using hb)]
    show mkPath ((List.filter _ (jsSplit isFwd target) ++ [basename target]).dropLast) = _
    rw [List.dropLast_concat]
    rfl
  have hpm : pathSegments (mkPath (pathSegments target)) = pathSegments target :=
    pathSegments_mkPath _ hseg_ne hseg_free
  constructor
  · intro tn tcs htdir
    obtain ⟨t2, ht2⟩ := setNodeAux_succeeds (pathSegments target) root tn tcs
      (src.rename (basename target)) htdir
    have hcopy : copy root source target = .ok t2 := by
      simp only [copy, hsrc, htdir]
      rw [hdir2, hbase2, setNode, rename_name]
      rw [if_neg (by simp [hbfc])]
      rw [if_neg (by rw [length_lt_one_iff]; exact hb)]
      rw [hpm]
      exact ht2
    refine ⟨t2, hcopy, ?_⟩
    rw [getNode, hpseg2]
    have hafter := getNodeAux_after_set (pathSegments target) root
      (src.rename (basename target)) t2 ht2
    rw [rename_name] at hafter
    exact hafter
  · intro hnot t2 hok
    have hcopy : copy root source target =
        setNode root (dirname target) (src.rename (basename target)) := by
      cases hg : getNode root target with
      | none => simp only [copy, hsrc, hg]
      | some x =>
        cases x with
        | dir xn xcs => exact absurd hg (hnot xn xcs)
        | file a b c d => simp only [copy, hsrc, hg]
    rw [hcopy, setNode, rename_name] at hok
    rw [if_neg (by simp [hbfc])] at hok
    rw [if_neg (by rw [length_lt_one_iff]; exact hb)] at hok
    have hdn : dirname target = mkPath ((pathSegments target).dropLast) := by
      rw [dirname, jsSplit, hcongr, hsegdrop, hps]
      rw [List.map_append, List.map_cons, List.map_nil, ← hbase]
      rw [List.filter_append, List.filter_cons]
      rw [if_pos (by simpa using hb)]
      show mkPath ((List.filter _ _ ++ [basename target]).dropLast) = _
      rw [List.dropLast_concat]
    have hdlne : ∀ x ∈ (pathSegments target).dropLast, x ≠ "" := fun x hx =>
      hseg_ne x (List.dropLast_subset _ hx)
    have hdlfree : ∀ x ∈ (pathSegments target).dropLast, ∀ c ∈ x.data, isFwd c = false :=
      fun x hx => hseg_free x (List.dropLast_subset _ hx)
    have hpm2 : pathSegments (mkPath ((pathSegments target).dropLast)) =
        (pathSegments target).dropLast := pathSegments_mkPath _ hdlne hdlfree
    rw [hdn, hpm2] at hok
    have hafter := getNodeAux_after_set _ root (src.rename (basename target)) t2 hok
    rw [rename_name] at hafter
    rw [getNode]
    have hfull : (pathSegments target).dropLast ++ [basename target] =
        pathSegments target := by
      rw [hsegdrop, hsegsplit]
    rw [← hfull]
    exact hafter

/-- Witness for the amended C5: copying `/a` into the existing directory
`/d` lands the clone at `/d/d` (the target's base name). -/
theorem copy_amended_witness :
    ∃ t2, copy (.dir "" [.file "a" (some 1) (some 2) "u", .dir "d" []]) "/a" "/d" = .ok t2 ∧
      getNode t2 ("/d" ++ "/" ++ basename "/d") =
        some ((FSNode.file "a" (some 1) (some 2) "u").rename (basename "/d")) :=
  (copy_amended (.dir "" [.file "a" (some 1) (some 2) "u", .dir "d" []])
      (.file "a" (some 1) (some 2) "u") "/a" "/d"
      (by decide) rfl (by decide) (by decide)).1 "d" [] rfl

/-! ## Decimal printing parses back -/

theorem natDec_chars (n : Nat) : ∀ c ∈ natDec n, ∃ d, d < 10 ∧ c = digitChar d := by
  induction n using Nat.strong_induction_on with
  | _ n ih =>
    intro c hc
    rw [natDec] at hc
    by_cases h : n < 10
    · rw [dif_pos h] at hc
      simp at hc
      exact ⟨n, h, hc⟩
    · rw [dif_neg h] at hc
      rcases List.mem_append.mp hc with hc | hc
      · exact ih (n / 10) (Nat.div_lt_self (by omega) (by omega)) c hc
      · simp at hc
        exact ⟨n % 10, Nat.mod_lt _ (by omega), hc⟩

theorem natDec_ne_nil (n : Nat) : natDec n ≠ [] := by
  rw [natDec]
  by_cases h : n < 10
  · rw [dif_pos h]
    simp
  · rw [dif_neg h]
    simp

theorem digitVal_digitChar (d : Nat) (h : d < 10) : digitVal (digitChar d) = some d := by
  interval_cases d <;> decide

theorem digitChar_plain (d : Nat) (h : d < 10) :
    isWs (digitChar d) = false ∧ digitChar d ≠ '-' ∧ digitChar d ≠ '+' ∧
    isTab (digitChar d) = false ∧ isNl (digitChar d) = false := by
  interval_cases d <;> decide

theorem takeDigits_append_digits (l r : List Char)
    (h : ∀ c ∈ l, (digitVal c).isSome) :
    takeDigits (l ++ r) = (l.map (fun c => (digitVal c).getD 0)) ++ takeDigits r := by
  induction l with
  | nil => rfl
  | cons c t ih =>
    have hc := h c (by simp)
    cases hv : digitVal c with
    | none => rw [hv] at hc; simp at hc
    | some d =>
      rw [List.cons_append]
      simp only [takeDigits, hv, List.map_cons]
      rw [ih (fun x hx => h x (by simp [hx]))]
      simp [hv]

theorem decValue_snoc (ds : List Nat) (d : Nat) :
    decValue (ds ++ [d]) = 10 * decValue ds + d := by
  simp only [decValue, List.foldl_append, List.foldl_cons, List.foldl_nil]
  omega

theorem natDec_digitsome (n : Nat) : ∀ c ∈ natDec n, (digitVal c).isSome := by
  intro c hc
  obtain ⟨d, hd, hcd⟩ := natDec_chars n c hc
  rw [hcd, digitVal_digitChar d hd]
  rfl

theorem parse_natDec (n : Nat) :
    takeDigits (natDec n) ≠ [] ∧ decValue (takeDigits (natDec n)) = n := by
  induction n using Nat.strong_induction_on with
  | _ n ih =>
    by_cases h : n < 10
    · have hnd : natDec n = [digitChar n] := by rw [natDec, dif_pos h]
      rw [hnd]
      simp only [takeDigits, digitVal_digitChar n h]
      exact ⟨by simp, by simp [decValue]⟩
    · have hrec : natDec n = natDec (n / 10) ++ [digitChar (n % 10)] := by
        rw [natDec]
        rw [dif_neg h]
      obtain ⟨hne, hval⟩ := ih (n / 10) (Nat.div_lt_self (by omega) (by omega))
      have hdig := natDec_digitsome (n / 10)
      have h1 : takeDigits [digitChar (n % 10)] = [n % 10] := by
        simp only [takeDigits, digitVal_digitChar (n % 10) (Nat.mod_lt _ (by omega))]
      have h2 := takeDigits_append_digits (natDec (n / 10)) [] hdig
      simp only [List.append_nil, takeDigits] at h2
      rw [hrec, takeDigits_append_digits _ _ hdig, h1, ← h2]
      refine ⟨by simp, ?_⟩
      rw [decValue_snoc, hval]
      omega

theorem parseIntJS_intStr (i : Int) : parseIntJS (intStr i) = some i := by
  by_cases h : i < 0
  · have hd : (intStr i).data = '-' :: natDec i.natAbs := by
      rw [intStr, if_pos h]
    have hdw : (intStr i).data.dropWhile isWs = '-' :: natDec i.natAbs := by
      rw [hd, List.dropWhile_cons, if_neg (by decide)]
    simp only [parseIntJS, hdw, if_pos rfl]
    rw [if_neg (parse_natDec i.natAbs).1]
    rw [(parse_natDec i.natAbs).2]
    have hni : -((i.natAbs : Nat) : Int) = i := by omega
    rw [hni]
    simp
  · have hd : (intStr i).data = natDec i.natAbs := by
      rw [intStr, if_neg h]
    cases hnd : natDec i.natAbs with
    | nil => exact absurd hnd (natDec_ne_nil _)
    | cons c rest =>
      obtain ⟨d, hdlt, hcd⟩ := natDec_chars i.natAbs c (by rw [hnd]; simp)
      obtain ⟨hws, hminus, hplus, _, _⟩ := digitChar_plain d hdlt
      have hdw : (intStr i).data.dropWhile isWs = c :: rest := by
        rw [hd, hnd, List.dropWhile_cons, if_neg (by rw [hcd, hws]; simp)]
      simp only [parseIntJS, hdw]
      rw [if_neg (by rw [hcd]; exact hminus), if_neg (by rw [hcd]; exact hplus)]
      rw [← hnd, if_neg (parse_natDec i.natAbs).1, (parse_natDec i.natAbs).2]
      congr 1
      omega

/-! ## Every export line parses back -/

theorem joinSeps_chars (sep : Char) (parts : List (List Char)) :
    ∀ c ∈ joinSeps sep parts, c = sep ∨ ∃ piece ∈ parts, c ∈ piece := by
  induction parts with
  | nil => intro c hc; simp [joinSeps] at hc
  | cons s rest ih =>
    cases rest with
    | nil =>
      intro c hc
      rw [show joinSeps sep [s] = s from rfl] at hc
      exact Or.inr ⟨s, by simp, hc⟩
    | cons s2 r2 =>
      intro c hc
      rw [show joinSeps sep (s :: s2 :: r2) = s ++ sep :: joinSeps sep (s2 :: r2) from rfl]
        at hc
      rcases List.mem_append.mp hc with hc | hc
      · exact Or.inr ⟨s, by simp, hc⟩
      · rcases List.mem_cons.mp hc with hc | hc
        · exact Or.inl hc
        · rcases ih c hc with h | ⟨p, hp, hcp⟩
          · exact Or.inl h
          · exact Or.inr ⟨p, by simp [hp], hcp⟩

theorem mkPath_chars (segs : List String) :
    ∀ c ∈ (mkPath segs).data, c = '/' ∨ ∃ s ∈ segs, c ∈ s.data := by
  intro c hc
  rw [mkPath_data] at hc
  rcases List.mem_cons.mp hc with hc | hc
  · exact Or.inl hc
  · rcases joinSeps_chars '/' (segs.map String.data) c hc with h | ⟨p, hp, hcp⟩
    · exact Or.inl h
    · obtain ⟨s, hs, hps⟩ := List.mem_map.mp hp
      refine Or.inr ⟨s, hs, ?_⟩
      rw [← hps] at hcp
      exact hcp

theorem splitFirst_append (p : Char → Bool) (l1 l2 : List Char) (sep : Char)
    (hfree : ∀ c ∈ l1, p c = false) (hsep : p sep = true) :
    splitFirst p (l1 ++ sep :: l2) = some (l1, l2) := by
  induction l1 with
  | nil => simp [splitFirst, hsep]
  | cons c t ih =>
    have hc := hfree c (by simp)
    rw [List.cons_append, splitFirst, if_neg (by simp [hc]),
      ih (fun x hx => hfree x (by simp [hx]))]
    rfl

theorem dropWhile_of_trim_eq (v : List Char) (h : trimChars v = v) :
    v.dropWhile isWs = v ∧ v.reverse.dropWhile isWs = v.reverse := by
  have h1 : (v.dropWhile isWs).length ≤ v.length :=
    (List.dropWhile_suffix isWs).length_le
  have h2 : ((v.dropWhile isWs).reverse.dropWhile isWs).length ≤
      (v.dropWhile isWs).length := by
    have := (List.dropWhile_suffix (l := (v.dropWhile isWs).reverse) isWs).length_le
    simpa using this
  have hlen : (trimChars v).length = v.length := by rw [h]
  rw [trimChars] at hlen
  simp only [List.length_reverse] at hlen
  have heq1 : (v.dropWhile isWs).length = v.length := by omega
  have ha : v.dropWhile isWs = v :=
    (List.dropWhile_suffix isWs).eq_of_length heq1
  refine ⟨ha, ?_⟩
  rw [ha] at hlen
  exact (List.dropWhile_suffix isWs).eq_of_length (by simpa using hlen)

theorem trimJS_data (s : String) : (trimJS s).data = trimChars s.data := rfl

theorem trim_ws_cons (v : String) (h : trimJS v = v) :
    trimJS ⟨' ' :: v.data⟩ = v := by
  have hdata : trimChars v.data = v.data := congrArg String.data h
  obtain ⟨h1, h2⟩ := dropWhile_of_trim_eq v.data hdata
  have : trimChars (' ' :: v.data) = v.data := by
    rw [trimChars, List.dropWhile_cons, if_pos (by decide), h1, h2, List.reverse_reverse]
  have hh : trimJS ⟨' ' :: v.data⟩ = ⟨trimChars (' ' :: v.data)⟩ := rfl
  rw [hh, this, string_mk_data]

theorem parseHeaderLine_headerLine (k v : String)
    (hk : ∀ c ∈ k.data, c ≠ ':') (hkt : trimJS k = k) (hvt : trimJS v = v) :
    parseHeaderLine (headerLine (k, v)) = (k, v) := by
  have hdata : (headerLine (k, v)).data = k.data ++ ':' :: ' ' :: v.data := by
    show ((k ++ ": ") ++ v).data = _
    rw [String.data_append, String.data_append]
    simp [show (": " : String).data = [':', ' '] from rfl]
  rw [parseHeaderLine, hdata,
    splitFirst_append _ _ _ _ (fun c hc => by simp [hk c hc]) rfl]
  show (trimJS ⟨k.data⟩, trimJS ⟨' ' :: v.data⟩) = (k, v)
  rw [string_mk_data, hkt, trim_ws_cons v hvt]

theorem headerLine_ne_blank (k v : String) : headerLine (k, v) ≠ "" := by
  intro h
  have := congrArg String.data h
  rw [show (headerLine (k, v)).data = k.data ++ ':' :: ' ' :: v.data from by
    show ((k ++ ": ") ++ v).data = _
    rw [String.data_append, String.data_append]
    simp [show (": " : String).data = [':', ' '] from rfl]] at this
  simp at this

theorem jsSplit_tabs4 (a b c d : String)
    (ha : ∀ x ∈ a.data, isTab x = false) (hb : ∀ x ∈ b.data, isTab x = false)
    (hc : ∀ x ∈ c.data, isTab x = false) (hd : ∀ x ∈ d.data, isTab x = false) :
    jsSplit isTab (a ++ "\t" ++ b ++ "\t" ++ c ++ "\t" ++ d) = [a, b, c, d] := by
  have hdata : (a ++ "\t" ++ b ++ "\t" ++ c ++ "\t" ++ d).data =
      a.data ++ '\t' :: (b.data ++ '\t' :: (c.data ++ '\t' :: d.data)) := by
    repeat rw [String.data_append]
    simp [show ("\t" : String).data = ['\t'] from rfl]
  rw [jsSplit, hdata, splitCh_sep isTab '\t' rfl, splitCh_sep isTab '\t' rfl,
    splitCh_sep isTab '\t' rfl, splitCh_nosep isTab a.data ha, splitCh_nosep isTab b.data hb,
    splitCh_nosep isTab c.data hc, splitCh_nosep isTab d.data hd]
  simp [string_mk_data]

theorem intStr_clean (i : Int) :
    ∀ c ∈ (intStr i).data, isTab c = false ∧ isNl c = false := by
  intro c hc
  rw [intStr] at hc
  by_cases h : i < 0
  · rw [if_pos h] at hc
    rcases List.mem_cons.mp hc with hc | hc
    · subst hc; exact ⟨rfl, rfl⟩
    · obtain ⟨d, hd, hcd⟩ := natDec_chars _ c hc
      obtain ⟨_, _, _, ht, hn⟩ := digitChar_plain d hd
      exact ⟨hcd ▸ ht, hcd ▸ hn⟩
  · rw [if_neg h] at hc
    obtain ⟨d, hd, hcd⟩ := natDec_chars _ c hc
    obtain ⟨_, _, _, ht, hn⟩ := digitChar_plain d hd
    exact ⟨hcd ▸ ht, hcd ▸ hn⟩

/-- Forbidden-character-free names contain no slash of either kind. -/
theorem name_noslash (s : String) (h : hasForbiddenChar s = false) :
    ∀ c ∈ s.data, isSlash c = false ∧ isFwd c = false := by
  intro c hc
  have hall : ∀ x ∈ s.data, x ∉ forbiddenChars := by
    simpa [hasForbiddenChar] using h
  have hcf := hall c hc
  have hns : c ≠ '/' ∧ c ≠ '\\' := by
    constructor <;> intro hcc <;> subst hcc <;> exact hcf (by simp [forbiddenChars])
  simp [isSlash, isFwd, hns.1, hns.2]

/-- All characters of a path built from forbidden-free segments avoid
tab and newline (given the names do). -/
theorem mkPath_clean (segs : List String)
    (h : ∀ s ∈ segs, cleanStr s) :
    ∀ c ∈ (mkPath segs).data, isTab c = false ∧ isNl c = false := by
  intro c hc
  rcases mkPath_chars segs c hc with hcs | ⟨s, hs, hcs⟩
  · subst hcs; exact ⟨rfl, rfl⟩
  · obtain ⟨h1, h2⟩ := h s hs
    constructor
    · by_contra hq
      have : c = '\t' := by
        have := Bool.not_eq_false _ |>.mp hq
        simpa [isTab] using this
      exact h1 (this ▸ hcs)
    · by_contra hq
      have : c = '\n' := by
        have := Bool.not_eq_false _ |>.mp hq
        simpa [isNl] using this
      exact h2 (this ▸ hcs)

/-! ## The segment-level walk -/

theorem nodeSize_pos (c : FSNode) : 1 ≤ nodeSize c := by
  cases c <;> simp [nodeSize]

theorem entriesSeg_shift_aux (N : Nat) : ∀ (cs : List FSNode), listSize cs ≤ N →
    ∀ acc, entriesSeg cs acc = (entriesSeg cs []).map (fun e => (acc ++ e.1, e.2)) := by
  induction N with
  | zero =>
    intro cs hcs acc
    cases cs with
    | nil => simp [entriesSeg]
    | cons c rest =>
      exfalso
      have := nodeSize_pos c
      simp [listSize] at hcs
      omega
  | succ N ih =>
    intro cs hcs acc
    cases cs with
    | nil => simp [entriesSeg]
    | cons c rest =>
      cases c with
      | file n sz cd mu =>
        have hrest : listSize rest ≤ N := by
          simp [listSize, nodeSize] at hcs
          omega
        rw [entriesSeg, entriesSeg, List.map_cons, ih rest hrest acc]
        simp
      | dir d csd =>
        have hrest : listSize rest ≤ N := by
          simp [listSize, nodeSize] at hcs
          omega
        have hcsd : listSize csd ≤ N := by
          simp [listSize, nodeSize] at hcs
          omega
        rw [entriesSeg, entriesSeg]
        simp only [List.nil_append]
        rw [List.map_append, ih csd hcsd (acc ++ [d]), ih csd hcsd [d],
          ih rest hrest acc, List.map_map]
        congr 1
        refine List.map_congr_left ?_
        intro e _
        simp

theorem entriesSeg_shift (cs : List FSNode) (acc : List String) :
    entriesSeg cs acc = (entriesSeg cs []).map (fun e => (acc ++ e.1, e.2)) :=
  entriesSeg_shift_aux (listSize cs) cs (le_refl _) acc

theorem pruneList_size_aux (N : Nat) : ∀ (cs : List FSNode), listSize cs ≤ N →
    listSize (pruneList cs) ≤ listSize cs := by
  induction N with
  | zero =>
    intro cs hcs
    cases cs with
    | nil => simp [pruneList]
    | cons c rest =>
      exfalso
      have := nodeSize_pos c
      simp [listSize] at hcs
      omega
  | succ N ih =>
    intro cs hcs
    cases cs with
    | nil => simp [pruneList]
    | cons c rest =>
      cases c with
      | file n sz cd mu =>
        have hrest : listSize rest ≤ N := by
          simp [listSize, nodeSize] at hcs
          omega
        have := ih rest hrest
        simp [pruneList, listSize, nodeSize]
        omega
      | dir d csd =>
        have hrest : listSize rest ≤ N := by
          simp [listSize, nodeSize] at hcs
          omega
        have hcsd : listSize csd ≤ N := by
          simp [listSize, nodeSize] at hcs
          omega
        have h1 := ih rest hrest
        have h2 := ih csd hcsd
        by_cases hemp : (entriesSeg csd []).isEmpty
        · simp only [pruneList, hemp, if_true]
          simp [listSize, nodeSize]
          omega
        · simp only [pruneList, hemp, Bool.false_eq_true, if_false]
          simp [listSize, nodeSize]
          omega

theorem pruneList_size (cs : List FSNode) : listSize (pruneList cs) ≤ listSize cs :=
  pruneList_size_aux (listSize cs) cs (le_refl _)

theorem entriesSeg_prune_aux (N : Nat) : ∀ (cs : List FSNode), listSize cs ≤ N →
    ∀ acc, entriesSeg (pruneList cs) acc = entriesSeg cs acc := by
  induction N with
  | zero =>
    intro cs hcs acc
    cases cs with
    | nil => simp [pruneList]
    | cons c rest =>
      exfalso
      have := nodeSize_pos c
      simp [listSize] at hcs
      omega
  | succ N ih =>
    intro cs hcs acc
    cases cs with
    | nil => simp [pruneList]
    | cons c rest =>
      cases c with
      | file n sz cd mu =>
        have hrest : listSize rest ≤ N := by
          simp [listSize, nodeSize] at hcs
          omega
        rw [pruneList, entriesSeg, entriesSeg, ih rest hrest acc]
      | dir d csd =>
        have hrest : listSize rest ≤ N := by
          simp [listSize, nodeSize] at hcs
          omega
        have hcsd : listSize csd ≤ N := by
          simp [listSize, nodeSize] at hcs
          omega
        by_cases hemp : (entriesSeg csd []).isEmpty
        · have hnilcs : entriesSeg csd [] = [] := by
            cases hq : entriesSeg csd [] with
            | nil => rfl
            | cons a t => rw [hq] at hemp; simp [List.isEmpty] at hemp
          rw [pruneList, if_pos hemp, entriesSeg, ih rest hrest acc,
            entriesSeg_shift csd (acc ++ [d]), hnilcs]
          simp
        · rw [pruneList, if_neg (by simp [hemp]), entriesSeg, entriesSeg,
            ih csd hcsd (acc ++ [d]), ih rest hrest acc]

theorem entriesSeg_prune (cs : List FSNode) (acc : List String) :
    entriesSeg (pruneList cs) acc = entriesSeg cs acc :=
  entriesSeg_prune_aux (listSize cs) cs (le_refl _) acc

theorem walkEntries_entriesSeg_aux (N : Nat) : ∀ (cs : List FSNode), listSize cs ≤ N →
    ∀ acc, walkEntries cs acc =
      (entriesSeg cs acc).map (fun e => (mkPath (e.1 ++ [e.2.1]), e.2.2)) := by
  induction N with
  | zero =>
    intro cs hcs acc
    cases cs with
    | nil => simp [walkEntries, entriesSeg]
    | cons c rest =>
      exfalso
      have := nodeSize_pos c
      simp [listSize] at hcs
      omega
  | succ N ih =>
    intro cs hcs acc
    cases cs with
    | nil => simp [walkEntries, entriesSeg]
    | cons c rest =>
      cases c with
      | file n sz cd mu =>
        have hrest : listSize rest ≤ N := by
          simp [listSize, nodeSize] at hcs
          omega
        rw [walkEntries, entriesSeg, List.map_cons, ih rest hrest acc]
      | dir d csd =>
        have hrest : listSize rest ≤ N := by
          simp [listSize, nodeSize] at hcs
          omega
        have hcsd : listSize csd ≤ N := by
          simp [listSize, nodeSize] at hcs
          omega
        rw [walkEntries, entriesSeg, List.map_append, ih csd hcsd (acc ++ [d]),
          ih rest hrest acc]

theorem walkEntries_entriesSeg (cs : List FSNode) (acc : List String) :
    walkEntries cs acc =
      (entriesSeg cs acc).map (fun e => (mkPath (e.1 ++ [e.2.1]), e.2.2)) :=
  walkEntries_entriesSeg_aux (listSize cs) cs (le_refl _) acc

theorem entriesSeg_clean_aux (N : Nat) : ∀ (cs : List FSNode), listSize cs ≤ N →
    wfList cs → ∀ acc, (∀ s ∈ acc, validName s) →
    ∀ e ∈ entriesSeg cs acc, entryClean e := by
  induction N with
  | zero =>
    intro cs hcs _ acc _ e he
    cases cs with
    | nil => simp [entriesSeg] at he
    | cons c rest =>
      exfalso
      have := nodeSize_pos c
      simp [listSize] at hcs
      omega
  | succ N ih =>
    intro cs hcs hwf acc hacc e he
    cases cs with
    | nil => simp [entriesSeg] at he
    | cons c rest =>
      cases c with
      | file n sz cd mu =>
        have hrest : listSize rest ≤ N := by
          simp [listSize, nodeSize] at hcs
          omega
        rw [entriesSeg] at he
        rcases List.mem_cons.mp he with he | he
        · subst he
          obtain ⟨⟨hv, hsz, hcd, hmu⟩, _⟩ := hwf
          exact ⟨hacc, hv, hsz, hcd, hmu⟩
        · exact ih rest hrest hwf.2 acc hacc e he
      | dir d csd =>
        have hrest : listSize rest ≤ N := by
          simp [listSize, nodeSize] at hcs
          omega
        have hcsd : listSize csd ≤ N := by
          simp [listSize, nodeSize] at hcs
          omega
        rw [entriesSeg] at he
        rcases List.mem_append.mp he with he | he
        · obtain ⟨⟨hv, _, hwfd⟩, _⟩ := hwf
          refine ih csd hcsd hwfd (acc ++ [d]) ?_ e he
          intro s hs
          rcases List.mem_append.mp hs with hs | hs
          · exact hacc s hs
          · simp at hs
            subst hs
            exact hv
        · exact ih rest hrest hwf.2 acc hacc e he

theorem entriesSeg_clean (cs : List FSNode) (hwf : wfList cs) (acc : List String)
    (hacc : ∀ s ∈ acc, validName s) : ∀ e ∈ entriesSeg cs acc, entryClean e :=
  entriesSeg_clean_aux (listSize cs) cs (le_refl _) hwf acc hacc

/-! ## Rebuilding the tree from its walk -/

theorem findChild_eq_none_of_not_mem (E : List FSNode) (n : String)
    (h : ¬ n ∈ names E) : findChild E n = none := by
  rw [findChild, List.find?_eq_none]
  intro x hx hq
  refine h ?_
  rw [names, List.mem_map]
  exact ⟨x, hx, by simpa using hq⟩

theorem filter_name_eq_self (E : List FSNode) (n : String) (h : ¬ n ∈ names E) :
    E.filter (fun c => c.name ≠ n) = E := by
  refine List.filter_eq_self.mpr ?_
  intro c hc
  simp only [ne_eq, decide_not]
  have : c.name ≠ n := by
    intro hq
    exact h (by rw [names, List.mem_map]; exact ⟨c, hc, hq⟩)
  simpa using this

theorem setNodeAux_ok_dir (π : List String) (t node t2 : FSNode)
    (h : setNodeAux t π node = .ok t2) : ∃ C, t2 = .dir t.name C := by
  obtain ⟨hn, hd⟩ := setNodeAux_name π t node t2 h
  cases t2 with
  | file a b c d => simp [FSNode.isDir] at hd
  | dir n2 C =>
    refine ⟨C, ?_⟩
    have : n2 = t.name := hn
    rw [this]

theorem replaceFirst_replaceFirst (E : List FSNode) (d : String) (S1 S2 : FSNode)
    (h : S1.name = d) :
    replaceFirst (replaceFirst E d S1) d S2 = replaceFirst E d S2 := by
  induction E with
  | nil => rfl
  | cons x rest ih =>
    by_cases hx : x.name == d
    · rw [replaceFirst, if_pos hx, replaceFirst, if_pos (by simp [h]), replaceFirst,
        if_pos hx]
    · rw [replaceFirst, if_neg hx, replaceFirst, if_neg hx, ih, replaceFirst, if_neg hx]

theorem replaceFirst_append_last (E : List FSNode) (d : String) (S1 S2 : FSNode)
    (hmem : ¬ d ∈ names E) (h : S1.name = d) :
    replaceFirst (E ++ [S1]) d S2 = E ++ [S2] := by
  induction E with
  | nil => simp [replaceFirst, h]
  | cons x rest ih =>
    have hx : ¬ (x.name == d) := by
      simp only [names, List.map_cons, List.mem_cons] at hmem
      simpa using fun hq => hmem (Or.inl hq.symm)
    rw [List.cons_append, replaceFirst, if_neg hx,
      ih (fun hq => hmem (by simp [names] at hq ⊢; exact Or.inr hq))]
    rfl

theorem insertAll_append_ok (es1 es2 : List (List String × String × JsNum × JsNum × String))
    (t t1 : FSNode) (h : insertAll t es1 = .ok t1) :
    insertAll t (es1 ++ es2) = insertAll t1 es2 := by
  induction es1 generalizing t with
  | nil =>
    simp only [insertAll] at h
    cases h
    rfl
  | cons e rest ih =>
    obtain ⟨π, n, sz, cd, mu⟩ := e
    rw [insertAll] at h
    rw [List.cons_append, insertAll]
    cases hstep : setNodeAux t π (.file n sz cd mu) with
    | ok t2 =>
      rw [hstep] at h
      exact ih t2 h
    | error e2 =>
      rw [hstep] at h
      exact Except.noConfusion h

theorem insertAll_under_child
    (es : List (List String × String × JsNum × JsNum × String)) :
    ∀ (E C C2 : List FSNode) (m d : String),
    findChild E d = some (.dir d C) →
    insertAll (.dir d C) es = .ok (.dir d C2) →
    insertAll (.dir m E) (es.map (fun e => (d :: e.1, e.2))) =
      .ok (.dir m (replaceFirst E d (.dir d C2))) := by
  induction es with
  | nil =>
    intro E C C2 m d hf hinner
    simp only [insertAll] at hinner
    have : (FSNode.dir d C) = (FSNode.dir d C2) := by
      cases hinner
      rfl
    cases this
    rw [List.map_nil, insertAll, replaceFirst_self E d _ hf]
  | cons e rest ih =>
    intro E C C2 m d hf hinner
    obtain ⟨π, n, sz, cd, mu⟩ := e
    rw [insertAll] at hinner
    cases hrec : setNodeAux (.dir d C) π (.file n sz cd mu) with
    | error e2 =>
      rw [hrec] at hinner
      exact Except.noConfusion hinner
    | ok T1 =>
      rw [hrec] at hinner
      obtain ⟨C1, hT1⟩ := setNodeAux_ok_dir π _ _ T1 hrec
      rw [show (FSNode.dir d C).name = d from rfl] at hT1
      subst hT1
      have hstep : setNodeAux (.dir m E) (d :: π) (.file n sz cd mu) =
          .ok (.dir m (replaceFirst E d (.dir d C1))) := by
        simp [setNodeAux, hf, FSNode.isDir, hrec]
      simp only [List.map_cons, insertAll, hstep]
      have hf2 : findChild (replaceFirst E d (.dir d C1)) d = some (.dir d C1) :=
        findChild_replaceFirst E d _ _ hf rfl
      have hres := ih (replaceFirst E d (.dir d C1)) C1 C2 m d hf2 hinner
      rw [hres, replaceFirst_replaceFirst E d (.dir d C1) _ rfl]

theorem entriesSeg_shift_one (cs : List FSNode) (d : String) :
    entriesSeg cs [d] = (entriesSeg cs []).map (fun e => (d :: e.1, e.2)) := by
  rw [entriesSeg_shift cs [d]]
  rfl

theorem names_append (E : List FSNode) (y : FSNode) :
    names (E ++ [y]) = names E ++ [y.name] := by
  simp [names]

/-- Inserting, into a directory with fresh names, the file entries of a
well-formed child list in walk order appends exactly the pruned child
list. -/
theorem insertAll_rebuild_aux (N : Nat) : ∀ (cs : List FSNode), listSize cs ≤ N →
    ∀ (m : String) (E : List FSNode), wfList cs → (names cs).Nodup →
    (∀ x ∈ names cs, ¬ x ∈ names E) →
    insertAll (.dir m E) (entriesSeg cs []) = .ok (.dir m (E ++ pruneList cs)) := by
  induction N with
  | zero =>
    intro cs hcs m E _ _ _
    cases cs with
    | nil => simp [entriesSeg, insertAll, pruneList]
    | cons c rest =>
      exfalso
      have := nodeSize_pos c
      simp [listSize] at hcs
      omega
  | succ N ih =>
    intro cs hcs m E hwf hnd hdisj
    cases cs with
    | nil => simp [entriesSeg, insertAll, pruneList]
    | cons c rest =>
      have hndc : c.name ∉ names rest ∧ (names rest).Nodup := by
        rw [names, List.map_cons, List.nodup_cons] at hnd
        exact hnd
      cases c with
      | file n sz cd mu =>
        have hrest : listSize rest ≤ N := by
          simp [listSize, nodeSize] at hcs
          omega
        have hnE : ¬ n ∈ names E :=
          hdisj n (by rw [names, List.map_cons]; exact List.mem_cons_self _ _)
        have hstep : setNodeAux (.dir m E) [] (.file n sz cd mu) =
            .ok (.dir m (E ++ [.file n sz cd mu])) := by
          have hfe : E.filter (fun c => c.name ≠ (FSNode.file n sz cd mu).name) = E :=
            filter_name_eq_self E n hnE
          rw [setNodeAux, hfe]
        have hdisj3 : ∀ x ∈ names rest, ¬ x ∈ names (E ++ [FSNode.file n sz cd mu]) := by
          intro x hx
          rw [names_append]
          intro hq
          rcases List.mem_append.mp hq with hq | hq
          · exact hdisj x (by rw [names, List.map_cons]; exact List.mem_cons_of_mem _ hx) hq
          · rw [List.mem_singleton] at hq
            exact hndc.1 (hq ▸ hx)
        rw [entriesSeg]
        simp only [insertAll, hstep]
        rw [ih rest hrest m (E ++ [FSNode.file n sz cd mu]) hwf.2 hndc.2 hdisj3]
        rw [pruneList]
        simp [List.append_assoc]
      | dir d csd =>
        have hrest : listSize rest ≤ N := by
          simp [listSize, nodeSize] at hcs
          omega
        have hcsd : listSize csd ≤ N := by
          simp [listSize, nodeSize] at hcs
          omega
        have hdE : ¬ d ∈ names E :=
          hdisj d (by rw [names, List.map_cons]; exact List.mem_cons_self _ _)
        obtain ⟨⟨hvd, hndcsd, hwfcsd⟩, hwfrest⟩ := hwf
        have hdisj2 : ∀ x ∈ names rest, ¬ x ∈ names E := by
          intro x hx
          exact hdisj x (by rw [names, List.map_cons]; exact List.mem_cons_of_mem _ hx)
        rw [entriesSeg]
        simp only [List.nil_append]
        rw [entriesSeg_shift_one csd d]
        cases hes : entriesSeg csd [] with
        | nil =>
          simp only [List.map_nil, List.nil_append]
          rw [ih rest hrest m E hwfrest hndc.2 hdisj2, pruneList, if_pos (by rw [hes]; rfl)]
        | cons e0 es2 =>
          have hinner := ih csd hcsd d [] hwfcsd hndcsd (by simp [names])
          rw [hes] at hinner
          simp only [List.nil_append] at hinner
          obtain ⟨π0, n0, sz0, cd0, mu0⟩ := e0
          rw [insertAll] at hinner
          cases hrec0 : setNodeAux (.dir d []) π0 (.file n0 sz0 cd0 mu0) with
          | error e2 =>
            rw [hrec0] at hinner
            exact Except.noConfusion hinner
          | ok S0 =>
            rw [hrec0] at hinner
            obtain ⟨C0, hS0⟩ := setNodeAux_ok_dir _ _ _ _ hrec0
            rw [show (FSNode.dir d ([] : List FSNode)).name = d from rfl] at hS0
            subst hS0
            have hfnone := findChild_eq_none_of_not_mem E d hdE
            have hstep : setNodeAux (.dir m E) (d :: π0) (.file n0 sz0 cd0 mu0) =
                .ok (.dir m (E ++ [.dir d C0])) := by
              simp [setNodeAux, hfnone, hrec0]
            rw [List.map_cons, List.cons_append]
            simp only [insertAll, hstep]
            have hf2 : findChild (E ++ [FSNode.dir d C0]) d = some (.dir d C0) :=
              findChild_append_of_none E d _ hfnone rfl
            have hunder := insertAll_under_child es2 (E ++ [FSNode.dir d C0]) C0
              (pruneList csd) m d hf2 hinner
            rw [insertAll_append_ok (es2.map (fun e => (d :: e.1, e.2)))
              (entriesSeg rest []) _ _ hunder]
            rw [replaceFirst_append_last E d (.dir d C0) _ hdE rfl]
            have hdisj4 : ∀ x ∈ names rest,
                ¬ x ∈ names (E ++ [FSNode.dir d (pruneList csd)]) := by
              intro x hx
              rw [names_append]
              intro hq
              rcases List.mem_append.mp hq with hq | hq
              · exact hdisj2 x hx hq
              · rw [List.mem_singleton] at hq
                exact hndc.1 (hq ▸ hx)
            rw [ih rest hrest m (E ++ [FSNode.dir d (pruneList csd)]) hwfrest hndc.2 hdisj4]
            rw [pruneList, if_neg (by rw [hes]; simp)]
            simp [List.append_assoc]

theorem insertAll_rebuild (cs : List FSNode) (m : String) (hwf : wfList cs)
    (hnd : (names cs).Nodup) :
    insertAll (.dir m []) (entriesSeg cs []) = .ok (.dir m (pruneList cs)) := by
  have := insertAll_rebuild_aux (listSize cs) cs (le_refl _) m [] hwf hnd
    (by simp [names])
  simpa using this

theorem cleanStr_tabfree (s : String) (h : cleanStr s) :
    ∀ c ∈ s.data, isTab c = false := by
  intro c hc
  by_contra hq
  have : c = '\t' := by
    have := Bool.not_eq_false _ |>.mp hq
    simpa [isTab] using this
  exact h.1 (this ▸ hc)

theorem cleanStr_nlfree (s : String) (h : cleanStr s) :
    ∀ c ∈ s.data, isNl c = false := by
  intro c hc
  by_contra hq
  have : c = '\n' := by
    have := Bool.not_eq_false _ |>.mp hq
    simpa [isNl] using this
  exact h.2 (this ▸ hc)

theorem basename_mkPath (segs : List String) (n : String)
    (hfree : ∀ s ∈ segs ++ [n], ∀ c ∈ s.data, isSlash c = false) :
    basename (mkPath (segs ++ [n])) = n := by
  rw [basename, jsSplit_mkPath_p isSlash rfl (segs ++ [n]) (by simp) hfree]
  rw [show ("" : String) :: (segs ++ [n]) = (("" : String) :: segs) ++ [n] from rfl]
  exact List.getLastD_concat _ _ _

theorem dirname_mkPath (segs : List String) (n : String)
    (hne : ∀ s ∈ segs, s ≠ "") (hn : n ≠ "")
    (hfree : ∀ s ∈ segs ++ [n], ∀ c ∈ s.data, isSlash c = false) :
    dirname (mkPath (segs ++ [n])) = mkPath segs := by
  rw [dirname, jsSplit_mkPath_p isSlash rfl (segs ++ [n]) (by simp) hfree]
  rw [List.filter_cons, if_neg (by simp)]
  have hfl : (segs ++ [n]).filter (fun s => s ≠ "") = segs ++ [n] :=
    List.filter_eq_self.mpr (fun x hx => by
      rcases List.mem_append.mp hx with hx | hx
      · simpa using hne x hx
      · rw [List.mem_singleton] at hx
        subst hx
        simpa using hn)
  rw [hfl, List.dropLast_concat]

theorem jsSplit_joinSegs (p : Char → Bool) (sep : Char) (hsep : p sep = true)
    (segs : List String) (hne : segs ≠ [])
    (hfree : ∀ s ∈ segs, ∀ c ∈ s.data, p c = false) :
    jsSplit p (joinSegs sep segs) = segs := by
  rw [jsSplit, splitCh_joinSegs p sep hsep segs hne hfree, map_mk_data]

theorem headerLine_nlfree (kv : String × String) (h : headerKV kv) :
    ∀ c ∈ (headerLine kv).data, isNl c = false := by
  intro c hc
  have hdata : (headerLine kv).data = kv.1.data ++ ':' :: ' ' :: kv.2.data := by
    show ((kv.1 ++ ": ") ++ kv.2).data = _
    rw [String.data_append, String.data_append]
    simp [show (": " : String).data = [':', ' '] from rfl]
  rw [hdata] at hc
  rcases List.mem_append.mp hc with hc | hc
  · by_contra hq
    have : c = '\n' := by
      have := Bool.not_eq_false _ |>.mp hq
      simpa [isNl] using this
    exact h.2.2.2.1 (this ▸ hc)
  · rcases List.mem_cons.mp hc with hc | hc
    · subst hc; rfl
    · rcases List.mem_cons.mp hc with hc | hc
      · subst hc; rfl
      · by_contra hq
        have : c = '\n' := by
          have := Bool.not_eq_false _ |>.mp hq
          simpa [isNl] using this
        exact h.2.2.2.2 (this ▸ hc)

theorem entryLine_data (π : List String) (n : String) (i j : Int) (mu : String) :
    (entryLine (π, n, some i, some j, mu)).data =
      (mkPath (π ++ [n])).data ++
        '\t' :: ((intStr i).data ++ '\t' :: ((intStr j).data ++ '\t' :: mu.data)) := by
  show (mkPath (π ++ [n]) ++ "\t" ++ intStr i ++ "\t" ++ intStr j ++ "\t" ++ mu).data = _
  repeat rw [String.data_append]
  simp [show ("\t" : String).data = ['\t'] from rfl]

theorem entryLine_nlfree (π : List String) (n : String) (i j : Int) (mu : String)
    (hπ : ∀ s ∈ π ++ [n], cleanStr s) (hmu : cleanStr mu) :
    ∀ c ∈ (entryLine (π, n, some i, some j, mu)).data, isNl c = false := by
  intro c hc
  rw [entryLine_data] at hc
  rcases List.mem_append.mp hc with hc | hc
  · exact (mkPath_clean (π ++ [n]) hπ c hc).2
  · rcases List.mem_cons.mp hc with hc | hc
    · subst hc; rfl
    · rcases List.mem_append.mp hc with hc | hc
      · exact (intStr_clean i c hc).2
      · rcases List.mem_cons.mp hc with hc | hc
        · subst hc; rfl
        · rcases List.mem_append.mp hc with hc | hc
          · exact (intStr_clean j c hc).2
          · rcases List.mem_cons.mp hc with hc | hc
            · subst hc; rfl
            · exact cleanStr_nlfree mu hmu c hc

theorem jsSplit_entryLine (π : List String) (n : String) (i j : Int) (mu : String)
    (hπ : ∀ s ∈ π ++ [n], cleanStr s) (hmu : cleanStr mu) :
    jsSplit isTab (entryLine (π, n, some i, some j, mu)) =
      [mkPath (π ++ [n]), intStr i, intStr j, mu] := by
  show jsSplit isTab
      (mkPath (π ++ [n]) ++ "\t" ++ intStr i ++ "\t" ++ intStr j ++ "\t" ++ mu) = _
  exact jsSplit_tabs4 _ _ _ _
    (fun x hx => (mkPath_clean (π ++ [n]) hπ x hx).1)
    (fun x hx => (intStr_clean i x hx).1)
    (fun x hx => (intStr_clean j x hx).1)
    (cleanStr_tabfree mu hmu)

/-- A record line built from a clean entry drives the restore loop into
exactly the `setNode` walk of the entry's segments. -/
theorem importLine_entry (hash : String → String) (mk : String)
    (hs : List (String × String)) (rt : FSNode) (π : List String) (n : String)
    (sz cd : JsNum) (mu : String) (hcl : entryClean (π, n, sz, cd, mu)) :
    importLine hash mk ⟨true, hs, rt⟩ (entryLine (π, n, sz, cd, mu)) =
      match setNodeAux rt π (.file n sz cd mu) with
      | .ok r => .ok ⟨true, hs, r⟩
      | .error (err, r) => .error (err, ⟨true, hs, r⟩) := by
  obtain ⟨hπ, hn, ⟨i, hi⟩, ⟨j, hj⟩, hmu⟩ := hcl
  simp only at hi hj hπ hn hmu
  subst hi
  subst hj
  have hπn : ∀ s ∈ π ++ [n], validName s := by
    intro s hs2
    rcases List.mem_append.mp hs2 with hs2 | hs2
    · exact hπ s hs2
    · rw [List.mem_singleton] at hs2
      subst hs2
      exact hn
  have hπc : ∀ s ∈ π ++ [n], cleanStr s := fun s hs2 => (hπn s hs2).2.2
  have hslash : ∀ s ∈ π ++ [n], ∀ c ∈ s.data, isSlash c = false :=
    fun s hs2 c hc => (name_noslash s (hπn s hs2).2.1 c hc).1
  have hsplit := jsSplit_entryLine π n i j mu hπc hmu
  have hbn : basename (mkPath (π ++ [n])) = n := basename_mkPath π n hslash
  have hdn : dirname (mkPath (π ++ [n])) = mkPath π :=
    dirname_mkPath π n (fun s hs2 => (hπn s (by simp [hs2])).1) hn.1 hslash
  have hrn : recordNode (entryLine (π, n, some i, some j, mu)) =
      .file n (some i) (some j) mu := by
    rw [recordNode, hsplit]
    simp [List.getD_cons_zero, List.getD_cons_succ, hbn, parseIntJS_intStr]
  have hseg : pathSegments (dirname ((jsSplit isTab
      (entryLine (π, n, some i, some j, mu))).getD 0 "")) = π := by
    rw [hsplit]
    show pathSegments (dirname (mkPath (π ++ [n]))) = π
    rw [hdn]
    exact pathSegments_mkPath π (fun s hs2 => (hπn s (by simp [hs2])).1)
      (fun s hs2 c hc => (name_noslash s (hπn s (by simp [hs2])).2.1 c hc).2)
  have hsn : setNode rt (dirname ((jsSplit isTab
      (entryLine (π, n, some i, some j, mu))).getD 0 ""))
        (recordNode (entryLine (π, n, some i, some j, mu))) =
      setNodeAux rt π (.file n (some i) (some j) mu) := by
    rw [hrn, setNode]
    rw [if_neg (by simp [FSNode.name, hn.2.1]), if_neg (by
      rw [length_lt_one_iff]
      simpa [FSNode.name] using hn.1), hseg]
  rw [importLine]
  rw [if_neg (by simp)]
  rw [hsn]

/-- The record section of the restore loop is the entry-insertion fold. -/
theorem runImport_entries (hash : String → String) (mk : String)
    (es : List (List String × String × JsNum × JsNum × String)) :
    ∀ (hs : List (String × String)) (rt t2 : FSNode),
    (∀ e ∈ es, entryClean e) →
    insertAll rt es = .ok t2 →
    runImport hash mk ⟨true, hs, rt⟩ (es.map entryLine) = .ok ⟨true, hs, t2⟩ := by
  induction es with
  | nil =>
    intro hs rt t2 _ hins
    rw [insertAll] at hins
    cases hins
    rfl
  | cons e rest ih =>
    intro hs rt t2 hcl hins
    obtain ⟨π, n, sz, cd, mu⟩ := e
    have hstep := importLine_entry hash mk hs rt π n sz cd mu (hcl _ (by simp))
    rw [List.map_cons, runImport]
    cases hrec : setNodeAux rt π (.file n sz cd mu) with
    | error ep =>
      rw [insertAll, hrec] at hins
      exact Except.noConfusion hins
    | ok t1 =>
      rw [insertAll, hrec] at hins
      rw [hrec] at hstep
      rw [hstep]
      exact ih hs t1 t2 (fun x hx => hcl x (by simp [hx])) hins

/-! ## Header-map (`Map` of key/value pairs) lemmas -/

theorem find_map_hset (m : List (String × String)) (k v : String) :
    m.any (fun kv => kv.1 == k) = true →
    (m.map (fun kv => if kv.1 == k then (k, v) else kv)).find?
      (fun kv => kv.1 == k) = some (k, v) := by
  induction m with
  | nil => intro h; simp at h
  | cons a t ih =>
    intro h
    rw [List.map_cons]
    by_cases ha : a.1 == k
    · rw [if_pos ha]
      rw [List.find?_cons_of_pos (p := fun (kv : String × String) => kv.1 == k) _ (by simp)]
    · rw [if_neg ha]
      rw [List.find?_cons_of_neg (p := fun (kv : String × String) => kv.1 == k) _ ha]
      refine ih ?_
      rw [List.any_cons] at h
      rcases Bool.or_eq_true_iff.mp h with h | h
      · exact absurd h ha
      · exact h

theorem find_map_ne (m : List (String × String)) (k k2 v : String) (h : k ≠ k2) :
    (m.map (fun kv => if kv.1 == k2 then (k2, v) else kv)).find?
      (fun kv => kv.1 == k) = m.find? (fun kv => kv.1 == k) := by
  induction m with
  | nil => rfl
  | cons a t ih =>
    rw [List.map_cons]
    by_cases ha2 : a.1 == k2
    · rw [if_pos ha2]
      have hak : ¬ (a.1 == k) = true := by
        intro hq
        have h1 : a.1 = k2 := by simpa using ha2
        have h2 : a.1 = k := by simpa using hq
        exact h (h2 ▸ h1)
      rw [List.find?_cons_of_neg (p := fun (kv : String × String) => kv.1 == k) _
          (by simp; exact fun q => h q.symm),
        List.find?_cons_of_neg (p := fun (kv : String × String) => kv.1 == k) _ hak, ih]
    · rw [if_neg ha2]
      by_cases hak : (a.1 == k) = true
      · rw [List.find?_cons_of_pos (p := fun (kv : String × String) => kv.1 == k) _ hak,
          List.find?_cons_of_pos (p := fun (kv : String × String) => kv.1 == k) _ hak]
      · rw [List.find?_cons_of_neg (p := fun (kv : String × String) => kv.1 == k) _ hak,
          List.find?_cons_of_neg (p := fun (kv : String × String) => kv.1 == k) _ hak, ih]

theorem find_append_single_ne (m : List (String × String)) (k k2 v : String)
    (h : k ≠ k2) :
    (m ++ [(k2, v)]).find? (fun kv => kv.1 == k) = m.find? (fun kv => kv.1 == k) := by
  induction m with
  | nil =>
    rw [List.nil_append,
      List.find?_cons_of_neg (p := fun (kv : String × String) => kv.1 == k) _
        (by simp; exact fun q => h q.symm)]
  | cons a t ih =>
    by_cases hak : (a.1 == k) = true
    · rw [List.cons_append,
        List.find?_cons_of_pos (p := fun (kv : String × String) => kv.1 == k) _ hak,
        List.find?_cons_of_pos (p := fun (kv : String × String) => kv.1 == k) _ hak]
    · rw [List.cons_append,
        List.find?_cons_of_neg (p := fun (kv : String × String) => kv.1 == k) _ hak,
        List.find?_cons_of_neg (p := fun (kv : String × String) => kv.1 == k) _ hak, ih]

theorem find_append_single_self (m : List (String × String)) (k v : String)
    (h : m.any (fun kv => kv.1 == k) = false) :
    (m ++ [(k, v)]).find? (fun kv => kv.1 == k) = some (k, v) := by
  induction m with
  | nil =>
    rw [List.nil_append,
      List.find?_cons_of_pos (p := fun (kv : String × String) => kv.1 == k) _ (by simp)]
  | cons a t ih =>
    rw [List.any_cons] at h
    have h2 := Bool.or_eq_false_iff.mp h
    rw [List.cons_append,
      List.find?_cons_of_neg (p := fun (kv : String × String) => kv.1 == k) _
        (by simp [h2.1]),
      ih h2.2]

theorem hget_hset_self (m : List (String × String)) (k v : String) :
    hget (hset m k v) k = some v := by
  rw [hset]
  by_cases h : m.any (fun kv => kv.1 == k)
  · rw [if_pos h, hget, find_map_hset m k v h]
    rfl
  · rw [if_neg h, hget, find_append_single_self m k v (Bool.eq_false_iff.mpr h)]
    rfl

theorem hget_hset_ne (m : List (String × String)) (k k2 v : String) (h : k ≠ k2) :
    hget (hset m k2 v) k = hget m k := by
  rw [hset]
  by_cases h2 : m.any (fun kv => kv.1 == k2)
  · rw [if_pos h2, hget, find_map_ne m k k2 v h]
    rfl
  · rw [if_neg h2, hget, find_append_single_ne m k k2 v h]
    rfl

theorem hget_foldl_hset_not_mem (kvs : List (String × String)) :
    ∀ (m : List (String × String)) (k : String), ¬ k ∈ kvs.map Prod.fst →
      hget (kvs.foldl (fun m2 kv => hset m2 kv.1 kv.2) m) k = hget m k := by
  induction kvs with
  | nil => intro m k _; rfl
  | cons a t ih =>
    intro m k hk
    rw [List.map_cons, List.mem_cons] at hk
    rw [List.foldl_cons, ih _ k (fun q => hk (Or.inr q)),
      hget_hset_ne m k a.1 a.2 (fun q => hk (Or.inl q))]

theorem hget_foldl_hset_mem (kvs : List (String × String)) :
    ∀ (m : List (String × String)), (kvs.map Prod.fst).Nodup → ∀ kv ∈ kvs,
      hget (kvs.foldl (fun m2 p => hset m2 p.1 p.2) m) kv.1 = some kv.2 := by
  induction kvs with
  | nil => intro m _ kv hkv; simp at hkv
  | cons a t ih =>
    intro m hnd kv hkv
    rw [List.map_cons, List.nodup_cons] at hnd
    rw [List.foldl_cons]
    rcases List.mem_cons.mp hkv with hkv | hkv
    · subst hkv
      rw [hget_foldl_hset_not_mem t _ kv.1 hnd.1, hget_hset_self]
    · exact ih (hset m a.1 a.2) hnd.2 kv hkv

/-- The header section of a restore built from clean bindings: every line
re-parses to its binding and the state folds them back with `Map.set`. -/
theorem runImport_header_lines (hash : String → String) (mk : String)
    (kvs : List (String × String)) :
    ∀ (st : ImportState), st.doneHeaders = false →
    (∀ kv ∈ kvs, headerKV kv) →
    (∀ kv ∈ kvs, kv.1 = "Encryption-Key-Hash" → kv.2 = keyHashHex hash mk) →
    runImport hash mk st (kvs.map headerLine) =
      .ok ⟨false, kvs.foldl (fun m kv => hset m kv.1 kv.2) st.headers, st.root⟩ := by
  induction kvs with
  | nil =>
    intro st hdh _ _
    cases st with
    | mk dh hh rt =>
      simp only at hdh
      subst hdh
      rfl
  | cons a t ih =>
    intro st hdh hcl hkh
    obtain ⟨k, v⟩ := a
    have hc := hcl (k, v) (by simp)
    have hpl : parseHeaderLine (headerLine (k, v)) = (k, v) :=
      parseHeaderLine_headerLine k v (fun c hc2 hq => hc.1 c hc2 hq) hc.2.1 hc.2.2.1
    have hlen : ¬ ((headerLine (k, v)).length < 1) := by
      rw [length_lt_one_iff]
      exact headerLine_ne_blank k v
    have hcond : ¬ ((parseHeaderLine (headerLine (k, v))).1 = "Encryption-Key-Hash" ∧
        keyHashHex hash mk ≠ (parseHeaderLine (headerLine (k, v))).2) := by
      rintro ⟨ha, hb⟩
      rw [hpl] at ha hb
      exact hb (hkh (k, v) (by simp) ha).symm
    have hstep : importLine hash mk st (headerLine (k, v)) = .ok { st with
        headers := hset st.headers k v } := by
      simp [importLine, hdh, hlen, hcond, hpl]
      intro hk
      exact (hkh (k, v) (by simp) hk).symm
    rw [List.map_cons, runImport, hstep, List.foldl_cons]
    exact ih { st with headers := hset st.headers k v } (by simpa using hdh)
      (fun x hx => hcl x (by simp [hx])) (fun x hx => hkh x (by simp [hx]))

/-- Splitting the exported text on newlines recovers the header lines, the
blank separator, and the record lines. -/
theorem jsSplit_exportFS (headers : List (String × String)) (cs : List FSNode)
    (hh : ∀ kv ∈ headers, headerKV kv) (hwf : wfList cs) :
    jsSplit isNl (exportFS headers (.dir "" cs)) =
      headers.map headerLine ++ [""] ++ ((entriesSeg cs []).map entryLine) := by
  have hrec : (walkEntries cs []).map recordLine = (entriesSeg cs []).map entryLine := by
    rw [walkEntries_entriesSeg cs [], List.map_map]
    rfl
  rw [exportFS, show (FSNode.dir "" cs).childrenD = cs from rfl, hrec]
  refine jsSplit_joinSegs isNl '\n' rfl _ (by simp) ?_
  intro s hs c hc
  rcases List.mem_append.mp hs with hs | hs
  · rcases List.mem_append.mp hs with hs | hs
    · obtain ⟨kv, hkv, hline⟩ := List.mem_map.mp hs
      subst hline
      exact headerLine_nlfree kv (hh kv hkv) c hc
    · rw [List.mem_singleton] at hs
      subst hs
      simp at hc
  · obtain ⟨e, he, hline⟩ := List.mem_map.mp hs
    subst hline
    have hcl := entriesSeg_clean cs hwf [] (by simp) e he
    obtain ⟨π, n, sz, cd, mu⟩ := e
    obtain ⟨hπ, hn, ⟨i, hi⟩, ⟨j, hj⟩, hmu⟩ := hcl
    simp only at hi hj hπ hn hmu
    subst hi
    subst hj
    refine entryLine_nlfree π n i j mu ?_ hmu c hc
    intro s2 hs2
    rcases List.mem_append.mp hs2 with hs2 | hs2
    · exact (hπ s2 hs2).2.2
    · rw [List.mem_singleton] at hs2
      subst hs2
      exact hn.2.2

/-- C2 (amended): for a well-formed tree — non-empty, forbidden-character-free,
tab- and newline-free names that are unique among siblings, numeric sizes and
creation dates, clean manifest references — and clean header bindings with
unique keys whose `Encryption-Key-Hash` (if present) is the hash of the
passphrase, `export()` followed by `init()` with the same passphrase succeeds,
the restored tree has exactly the same file walk (same paths with the same
size, creation date and manifest reference), and every exported header binding
(`Encryption-Salt` and `Encryption-Key-Hash` included) is preserved verbatim
rather than freshly generated. -/
theorem export_init_roundtrip_amended (hash : String → String)
    (mk saltHex date : String) (headers : List (String × String)) (cs : List FSNode)
    (hwf : wfList cs) (hnd : (names cs).Nodup)
    (hknd : (headers.map Prod.fst).Nodup)
    (hhc : ∀ kv ∈ headers, headerKV kv)
    (hkh : ∀ kv ∈ headers, kv.1 = "Encryption-Key-Hash" → kv.2 = keyHashHex hash mk) :
    ∃ hs2, initFS hash mk saltHex date (some (exportFS headers (.dir "" cs))) =
        .ok ⟨true, hs2, .dir "" (pruneList cs)⟩ ∧
      walkEntries (pruneList cs) [] = walkEntries cs [] ∧
      ∀ kv ∈ headers, hget hs2 kv.1 = some kv.2 := by
  refine ⟨headers.foldl (fun m kv => hset m kv.1 kv.2)
    (initialHeaders saltHex date (keyHashHex hash mk)), ?_, ?_, ?_⟩
  · have hsl := jsSplit_exportFS headers cs hhc hwf
    have hhead : runImport hash mk
        ⟨false, initialHeaders saltHex date (keyHashHex hash mk), emptyRoot⟩
        (headers.map headerLine) =
        .ok ⟨false, headers.foldl (fun m kv => hset m kv.1 kv.2)
          (initialHeaders saltHex date (keyHashHex hash mk)), emptyRoot⟩ :=
      runImport_header_lines hash mk headers
        ⟨false, initialHeaders saltHex date (keyHashHex hash mk), emptyRoot⟩ rfl hhc hkh
    have hblank : importLine hash mk
        (⟨false, headers.foldl (fun m kv => hset m kv.1 kv.2)
          (initialHeaders saltHex date (keyHashHex hash mk)), emptyRoot⟩ : ImportState)
        "" = .ok ⟨true, headers.foldl (fun m kv => hset m kv.1 kv.2)
          (initialHeaders saltHex date (keyHashHex hash mk)), emptyRoot⟩ := by
      simp [importLine]
    simp only [initFS]
    rw [hsl, List.append_assoc,
      runImport_append_ok hash mk (headers.map headerLine) _ _ _ hhead,
      show (([""] ++ (entriesSeg cs []).map entryLine : List String)) =
        "" :: (entriesSeg cs []).map entryLine from rfl,
      runImport]
    simp only [hblank]
    exact runImport_entries hash mk (entriesSeg cs [])
      (headers.foldl (fun m kv => hset m kv.1 kv.2)
        (initialHeaders saltHex date (keyHashHex hash mk)))
      emptyRoot (.dir "" (pruneList cs))
      (entriesSeg_clean cs hwf [] (by simp))
      (insertAll_rebuild cs "" hwf hnd)
  · rw [walkEntries_entriesSeg (pruneList cs) [], entriesSeg_prune cs [],
      ← walkEntries_entriesSeg cs []]
  · exact hget_foldl_hset_mem headers _ hknd

/-- C2, counterexample to the literal claim: a tab inside a file name is
accepted by `setNode` but shifts the tab-separated record fields on import,
so exporting and re-importing the tree silently changes the file walk. -/
theorem export_init_roundtrip_cex :
    initFS (fun _ => "H") "mk" "aa" "dd"
        (some (exportFS [] (.dir "" [.file "a\t7" (some 5) (some 3) "u"]))) =
      .ok ⟨true,
        [("FileSystem-Version", "1"), ("Creation-Date", "dd"),
         ("Description", "A data container"), ("Tags", ""), ("Use-Encryption", "1"),
         ("Encryption-Salt", "aa"), ("Encryption-Key-Hash", "H")],
        .dir "" [.file "a" (some 7) (some 5) "3"]⟩ ∧
    walkEntries [FSNode.file "a" (some 7) (some 5) "3"] [] ≠
      walkEntries [FSNode.file "a\t7" (some 5) (some 3) "u"] [] := by
  have h5 : natDec 5 = ['5'] := by rw [natDec]; rfl
  have h3 : natDec 3 = ['3'] := by rw [natDec]; rfl
  have hi5 : numStr (some (5 : Int)) = "5" := by
    show intStr 5 = "5"
    rw [intStr, if_neg (by decide), show ((5 : Int).natAbs) = 5 from rfl, h5]
  have hi3 : numStr (some (3 : Int)) = "3" := by
    show intStr 3 = "3"
    rw [intStr, if_neg (by decide), show ((3 : Int).natAbs) = 3 from rfl, h3]
  have hwalk : walkEntries [FSNode.file "a\t7" (some 5) (some 3) "u"] [] =
      [("/a\t7", some (5 : Int), some (3 : Int), "u")] := by
    rw [walkEntries, walkEntries]; rfl
  have hwalkA : walkEntries [FSNode.file "a" (some 7) (some 5) "3"] [] =
      [("/a", some (7 : Int), some (5 : Int), "3")] := by
    rw [walkEntries, walkEntries]; rfl
  have hrl : recordLine ("/a\t7", some (5 : Int), some (3 : Int), "u") =
      "/a\t7\t5\t3\tu" := by
    rw [recordLine]
    simp only
    rw [hi5, hi3]; rfl
  have hexp : exportFS [] (.dir "" [.file "a\t7" (some 5) (some 3) "u"]) =
      "\n/a\t7\t5\t3\tu" := by
    rw [exportFS, show (FSNode.dir "" [FSNode.file "a\t7" (some 5) (some 3) "u"]).childrenD
        = [FSNode.file "a\t7" (some 5) (some 3) "u"] from rfl, hwalk,
      List.map_nil, List.map_cons, List.map_nil, hrl]
    rfl
  refine ⟨?_, ?_⟩
  · rw [hexp]
    rfl
  · rw [hwalkA, hwalk]
    decide

/-- Witness for the amended C2 at a one-file tree with no extra headers. -/
theorem export_init_roundtrip_amended_witness :
    ∃ hs2, initFS (fun _ => "H") "mk" "aa" "dd"
        (some (exportFS [] (.dir "" [.file "a" (some 5) (some 3) "u"]))) =
        .ok ⟨true, hs2, .dir "" (pruneList [.file "a" (some 5) (some 3) "u"])⟩ ∧
      walkEntries (pruneList [.file "a" (some 5) (some 3) "u"]) [] =
        walkEntries [.file "a" (some 5) (some 3) "u"] [] ∧
      ∀ kv ∈ ([] : List (String × String)), hget hs2 kv.1 = some kv.2 :=
  export_init_roundtrip_amended (fun _ => "H") "mk" "aa" "dd" []
    [.file "a" (some 5) (some 3) "u"]
    ⟨⟨⟨by decide, by decide, by decide, by decide⟩, ⟨5, rfl⟩, ⟨3, rfl⟩,
      by decide, by decide⟩, trivial⟩
    (by decide) (by decide) (by simp) (by simp)

end Libfsx
